import Mathlib

/-!
Verification of the streaming assistant-message parsers and the chat UI state
transitions of the agent-assistant frontend.

Strings are modelled as `List Char` (`String.data` of the JavaScript string);
line-oriented processing goes through an explicit `splitLines`.  Each
definition is a direct transcription of one function of the source:

* `cleanContent`, `parsedContentCot` — the Planning/Step/Tool/Result/Summary
  (chain-of-thought) parser of the CoT `ChatMessage.vue` variant
  (`cleanContent` / `parsedContent` computed properties).
* `parsedContentTag`, `streamingStepTag`, `allStepsTag` — the tag-based
  `<think>`/`<tool_call>` parser of the second `ChatMessage.vue` variant
  (`parsedContent`, `streamingStep`, `allSteps` computed properties).
* `handleSendFinish` — the error/finalization path of `handleSend` in
  `AgentPage.vue` / `agent/Index.vue`.
* `handleSendInput` — `handleSend` of `ChatInput.vue`.

JavaScript regular expressions are modelled by explicit scanners:
non-greedy paired-tag matching by `tagScanF`/`removePairsF` (repeated
leftmost search of the opening marker, then the first closing marker after
it), `\nResult\s*$` by `stripTrailRes`, and the multiline `^Result\s*$`
replacement by the line-level `collapseF` (a matched group is the marker
line together with the following run of whitespace-only lines, replaced by
a single empty line, matching the greedy-plus-backtracking behaviour of
`\s*` before a line-end anchor).
-/

/-- Characters of a string literal. -/
def str (s : String) : List Char := s.data

/-- JavaScript `\s` / `trim` whitespace (ASCII range plus NBSP). -/
def jsWs (c : Char) : Bool :=
  c = ' ' || c = '\t' || c = '\n' || c = '\r' || c = '\x0b' || c = '\x0c' || c = '\u00A0'

/-- All characters are whitespace. -/
def allWs (l : List Char) : Bool := l.all jsWs

/-- JavaScript `String.prototype.trim`. -/
def trim (l : List Char) : List Char :=
  ((l.dropWhile jsWs).reverse.dropWhile jsWs).reverse

/-- Join lines with `'\n'` separators (inverse of splitting on `'\n'`). -/
def joinNL : List (List Char) → List Char
  | [] => []
  | [l] => l
  | l :: ls => l ++ '\n' :: joinNL ls

/-- JavaScript `content.split('\n')`. -/
def splitLines : List Char → List (List Char)
  | [] => [[]]
  | c :: cs =>
    if c = '\n' then [] :: splitLines cs
    else
      match splitLines cs with
      | [] => [[c]]
      | h :: t => (c :: h) :: t

/-- Index of the first occurrence of `pat` in `s` (JavaScript `indexOf`). -/
def findSub (pat : List Char) : List Char → Option Nat
  | [] => if pat.isPrefixOf ([] : List Char) then some 0 else none
  | c :: cs => if pat.isPrefixOf (c :: cs) then some 0 else (findSub pat cs).map (· + 1)

/-- Index of the last occurrence of `pat` in `s` (JavaScript `lastIndexOf`). -/
def lastSub (pat s : List Char) : Option Nat :=
  (((List.range (s.length + 1)).filter (fun i => pat.isPrefixOf (s.drop i)))).getLast?

/-- Scanner for a JavaScript global regex `open([\s\S]*?)close`: repeatedly
find the leftmost opening marker, then the first closing marker after it.
Returns the list of matches (start index of the whole match, inner content)
together with `true` iff the scan did not end on an opening marker that has
no closing marker after it (no dangling open tag).  The fuel argument only
forces termination; `fuel ≥ s.length` makes it irrelevant. -/
def tagScanF (op cl : List Char) : Nat → List Char → List (Nat × List Char) × Bool
  | 0, _ => ([], true)
  | fuel + 1, s =>
    match findSub op s with
    | none => ([], true)
    | some i =>
      let rest := s.drop (i + op.length)
      match findSub cl rest with
      | none => ([], false)
      | some j =>
        let pr := tagScanF op cl fuel (rest.drop (j + cl.length))
        ((i, rest.take j) ::
          pr.1.map (fun p => (p.1 + (i + op.length + j + cl.length), p.2)), pr.2)

/-- The matches of `open([\s\S]*?)close` in `s`. -/
def tagSpans (op cl s : List Char) : List (Nat × List Char) :=
  (tagScanF op cl s.length s).1

/-- `true` iff the scan of `s` leaves no dangling open marker. -/
def tagClosed (op cl s : List Char) : Bool :=
  (tagScanF op cl s.length s).2

/-- JavaScript `s.replace(/open([\s\S]*?)close/g, '')`. -/
def removePairsF (op cl : List Char) : Nat → List Char → List Char
  | 0, s => s
  | fuel + 1, s =>
    match findSub op s with
    | none => s
    | some i =>
      let rest := s.drop (i + op.length)
      match findSub cl rest with
      | none => s
      | some j => s.take i ++ removePairsF op cl fuel (rest.drop (j + cl.length))

/-- Remove all `open…close` spans (tags included). -/
def removePairs (op cl s : List Char) : List Char :=
  removePairsF op cl s.length s

/-- Truncate `s` at the first occurrence of `pat`
(`if (idx !== -1) s = s.substring(0, idx)`). -/
def truncAt (pat s : List Char) : List Char :=
  match findSub pat s with
  | some i => s.take i
  | none => s

/-- Number of matches of `s.match(/pat/g)` (non-overlapping, left to right). -/
def countSubF (pat : List Char) : Nat → List Char → Nat
  | 0, _ => 0
  | fuel + 1, s =>
    match findSub pat s with
    | none => 0
    | some i => 1 + countSubF pat fuel (s.drop (i + pat.length))

/-- Count of non-overlapping occurrences of `pat` in `s`. -/
def countSub (pat s : List Char) : Nat := countSubF pat s.length s

/-- JavaScript `s.replace(/\nResult\s*$/g, '')` (no multiline flag, so `$`
is the end of the string): delete from the first position whose suffix is
`"\nResult"` followed only by whitespace. -/
def stripTrailRes : List Char → List Char
  | [] => []
  | c :: cs =>
    if (str "\nResult").isPrefixOf (c :: cs) && allWs ((c :: cs).drop 7) then []
    else c :: stripTrailRes cs

/-- A line matched by `^Result\s*$` at its start: `"Result"` followed only
by whitespace within the line. -/
def isBareResult (l : List Char) : Bool :=
  (str "Result").isPrefixOf l && allWs (l.drop 6)

/-- Line-level model of `s.replace(/^Result\s*$/gm, '')`: a `Result` marker
line absorbs the following run of whitespace-only lines (the greedy `\s*`
backtracks to just before the last line break, or to the end of input) and
the whole group is replaced by one empty line. -/
def collapseF : Nat → List (List Char) → List (List Char)
  | 0, ls => ls
  | fuel + 1, ls =>
    match ls with
    | [] => []
    | l :: rest =>
      if isBareResult l then [] :: collapseF fuel (rest.dropWhile allWs)
      else l :: collapseF fuel rest

/-- Apply the `^Result\s*$` replacement to a line list. -/
def collapse (ls : List (List Char)) : List (List Char) := collapseF ls.length ls

/-- `cleanContent` of the CoT `ChatMessage.vue` variant: drop closed
`<think>…</think>` spans, truncate at a dangling `<think>`, strip the
residual `Result` stop word (trailing `\nResult\s*$` and marker lines
`^Result\s*$`), and trim. -/
def cleanContent (text : List Char) : List Char :=
  let c1 := removePairs (str "<think>") (str "</think>") text
  let c2 := truncAt (str "<think>") c1
  let c3 := stripTrailRes c2
  let c4 := joinNL (collapse (splitLines c3))
  trim c4

/-- Step kinds of the Planning/Step/Tool/Result CoT grammar. -/
inductive CotT
  | planning
  | step
  | tool
  | result
deriving DecidableEq, Repr

/-- Result record of the CoT `parsedContent` computed property. -/
structure CotResult where
  steps : List (CotT × List Char)
  response : List Char
  isStreaming : Bool
  hasSummary : Bool
deriving DecidableEq, Repr

/-- Mutable locals of the CoT parsing loop
(`steps`, `currentType`, `currentContent`, `remainingContent`, `inThinkBlock`). -/
structure CotState where
  steps : List (CotT × List Char)
  currentType : Option CotT
  currentContent : List (List Char)
  remaining : List (List Char)
  inThink : Bool
deriving DecidableEq, Repr

/-- `line.includes('<think>')`. -/
def hasThinkOpen (l : List Char) : Bool := (findSub (str "<think>") l).isSome

/-- `line.includes('</think>')`. -/
def hasThinkClose (l : List Char) : Bool := (findSub (str "</think>") l).isSome

/-- `line.match(/^Step\s*\d+:/)`. -/
def isStepLine (l : List Char) : Bool :=
  (str "Step").isPrefixOf l &&
    (let r := (l.drop 4).dropWhile jsWs
     let d := r.takeWhile Char.isDigit
     !d.isEmpty && (str ":").isPrefixOf (r.drop d.length))

/-- `line.replace(/^Step\s*\d+:\s*/, '').trim()` (only used on marker lines). -/
def stepRest (l : List Char) : List Char :=
  let r := (l.drop 4).dropWhile jsWs
  let d := r.takeWhile Char.isDigit
  trim (((r.drop d.length).drop 1).dropWhile jsWs)

/-- `line.match(/^#+\s/)`. -/
def isMdHeading (l : List Char) : Bool :=
  let hs := l.takeWhile (· = '#')
  !hs.isEmpty &&
    (match (l.drop hs.length).head? with
     | some c => jsWs c
     | none => false)

/-- `line.match(/^\|.*\|$/)` (no newline inside a line, so `.` is total). -/
def isMdTable (l : List Char) : Bool :=
  2 ≤ l.length && l.head? = some '|' && l.getLast? = some '|'

/-- `/^(Planning:|Step\s*\d+:)/m.test(text)`: some line starts with a CoT marker. -/
def isCotFormat (text : List Char) : Bool :=
  (splitLines text).any (fun l => (str "Planning:").isPrefixOf l || isStepLine l)

/-- Flush the accumulator: `if (currentType && currentContent.length > 0)`
push the cleaned content as a step of the current type when non-empty. -/
def flushCot (st : CotState) : List (CotT × List Char) :=
  match st.currentType with
  | none => st.steps
  | some t =>
    if st.currentContent.isEmpty then st.steps
    else
      let cleaned := cleanContent (joinNL st.currentContent)
      if cleaned.isEmpty then st.steps else st.steps ++ [(t, cleaned)]

/-- The `for` loop of the CoT `parsedContent`: walk the lines, returning the
final locals and `some summary` when the loop exited through the
`Summary:` branch (`break`). -/
def cotLoop (st : CotState) : List (List Char) → CotState × Option (List Char)
  | [] => (st, none)
  | l :: ls =>
    if hasThinkOpen l then cotLoop { st with inThink := true } ls
    else if hasThinkClose l then cotLoop { st with inThink := false } ls
    else if st.inThink then cotLoop st ls
    else if (str "Planning:").isPrefixOf l then
      cotLoop { steps := flushCot st, currentType := some CotT.planning,
                currentContent := [trim (l.drop 9)], remaining := [],
                inThink := st.inThink } ls
    else if isStepLine l then
      cotLoop { steps := flushCot st, currentType := some CotT.step,
                currentContent := [stepRest l], remaining := [],
                inThink := st.inThink } ls
    else if (str "Tool:").isPrefixOf l then
      cotLoop { steps := flushCot st, currentType := some CotT.tool,
                currentContent := [trim (l.drop 5)], remaining := st.remaining,
                inThink := st.inThink } ls
    else if (str "Tool Input:").isPrefixOf l then
      if st.currentType = some CotT.tool then
        cotLoop { st with currentContent := st.currentContent ++ [trim (l.drop 11)] } ls
      else cotLoop st ls
    else if (str "Result:").isPrefixOf l then
      cotLoop { steps := flushCot st, currentType := some CotT.result,
                currentContent := [trim (l.drop 7)], remaining := st.remaining,
                inThink := st.inThink } ls
    else if (str "Summary:").isPrefixOf l then
      ({ steps := flushCot st, currentType := none, currentContent := [],
         remaining := st.remaining, inThink := st.inThink },
       some (cleanContent (joinNL (trim (l.drop 8) :: ls))))
    else
      match st.currentType with
      | some _ =>
        if isMdHeading l || isMdTable l then
          cotLoop { steps := flushCot st, currentType := none, currentContent := [],
                    remaining := st.remaining ++ [l], inThink := st.inThink } ls
        else if trim l ≠ str "Result" then
          cotLoop { st with currentContent := st.currentContent ++ [l] } ls
        else cotLoop st ls
      | none => cotLoop { st with remaining := st.remaining ++ [l] } ls

/-- The CoT `parsedContent` computed property (Planning/Step/Tool/Result/Summary
grammar of the CoT `ChatMessage.vue` variant). -/
def parsedContentCot (content : List Char) : CotResult :=
  let cleaned := cleanContent content
  if !isCotFormat cleaned then
    { steps := [], response := cleaned, isStreaming := false, hasSummary := true }
  else
    let pr := cotLoop { steps := [], currentType := none, currentContent := [],
                        remaining := [], inThink := false } (splitLines content)
    let steps := flushCot pr.1
    let summary0 := pr.2.getD []
    let summary :=
      if summary0.isEmpty && !pr.1.remaining.isEmpty then
        cleanContent (joinNL pr.1.remaining)
      else summary0
    let streaming :=
      ((findSub (str "Planning:") content).isSome || (findSub (str "Step") content).isSome) &&
        !(findSub (str "Summary:") content).isSome && summary.isEmpty
    { steps := steps, response := summary, isStreaming := streaming,
      hasSummary := !summary.isEmpty }

/-- Step kinds of the ReAct line parser
(`Thought:` / `Action:` / `Action Input:` / `Observation:`). -/
inductive ReactT
  | thought
  | action
  | action_input
  | observation
deriving DecidableEq, Repr

/-- Mutable locals of the ReAct parsing loop
(`steps`, `currentType`, `currentContent`). -/
structure ReactState where
  steps : List (ReactT × List Char)
  currentType : Option ReactT
  currentContent : List (List Char)
deriving DecidableEq, Repr

/-- Result record of the ReAct `parsedContent` computed property. -/
structure ReactResult where
  steps : List (ReactT × List Char)
  response : List Char
  isStreaming : Bool
  hasSummary : Bool
deriving DecidableEq, Repr

/-- `/^(Thought:|Action:|Action Input:|Observation:|Final Answer:)/m.test(text)`:
some line starts with a ReAct marker. -/
def isReactFormat (text : List Char) : Bool :=
  (splitLines text).any (fun l =>
    (str "Thought:").isPrefixOf l || (str "Action:").isPrefixOf l ||
    (str "Action Input:").isPrefixOf l || (str "Observation:").isPrefixOf l ||
    (str "Final Answer:").isPrefixOf l)

/-- Flush the accumulator: `if (currentType && currentContent.length > 0)`
push the joined trimmed content as a step of the current type when non-empty. -/
def flushReact (st : ReactState) : List (ReactT × List Char) :=
  match st.currentType with
  | none => st.steps
  | some t =>
    if st.currentContent.isEmpty then st.steps
    else
      let text := trim (joinNL st.currentContent)
      if text.isEmpty then st.steps else st.steps ++ [(t, text)]

/-- The `for` loop of the ReAct `parsedContent`: walk the lines, returning the
final locals and `some finalAnswer` when the loop exited through the
`Final Answer:` branch (`break`). -/
def reactLoop (st : ReactState) : List (List Char) → ReactState × Option (List Char)
  | [] => (st, none)
  | l :: ls =>
    if (str "Thought:").isPrefixOf l then
      reactLoop { steps := flushReact st, currentType := some ReactT.thought,
                  currentContent := [trim (l.drop 8)] } ls
    else if (str "Action:").isPrefixOf l then
      reactLoop { steps := flushReact st, currentType := some ReactT.action,
                  currentContent := [trim (l.drop 7)] } ls
    else if (str "Action Input:").isPrefixOf l then
      reactLoop { steps := flushReact st, currentType := some ReactT.action_input,
                  currentContent := [trim (l.drop 13)] } ls
    else if (str "Observation:").isPrefixOf l || (str "Observ").isPrefixOf l then
      reactLoop { steps := flushReact st, currentType := some ReactT.observation,
                  currentContent :=
                    [if (str "Observation:").isPrefixOf l then trim (l.drop 12)
                     else trim (l.drop 6)] } ls
    else if (str "Final Answer:").isPrefixOf l then
      ({ steps := flushReact st, currentType := none, currentContent := [] },
       some (trim (joinNL (trim (l.drop 13) :: ls))))
    else
      match st.currentType with
      | some _ => reactLoop { st with currentContent := st.currentContent ++ [l] } ls
      | none => reactLoop st ls

/-- The ReAct `parsedContent` computed property
(`Thought`/`Action`/`Action Input`/`Observation`/`Final Answer` grammar of the
ReAct `ChatMessage.vue` variant): clean, sniff the format, line-scan the
cleaned content, flush, and derive the flags. -/
def parsedContentReact (content : List Char) : ReactResult :=
  let cleaned := cleanContent content
  if !isReactFormat cleaned then
    { steps := [], response := cleaned, isStreaming := false, hasSummary := true }
  else
    let pr := reactLoop { steps := [], currentType := none, currentContent := [] }
      (splitLines cleaned)
    let steps := flushReact pr.1
    let finalAnswer := pr.2.getD []
    { steps := steps, response := finalAnswer,
      isStreaming := finalAnswer.isEmpty && !steps.isEmpty,
      hasSummary := !finalAnswer.isEmpty }

/-- Step kinds of the tag-based parser (`thought` for `<think>`,
`action` for `<tool_call>`). -/
inductive TagT
  | thought
  | action
deriving DecidableEq, Repr

/-- One entry of the `steps` array of the tag-based `parsedContent`. -/
structure TagStep where
  type : TagT
  content : List Char
  index : Nat
deriving DecidableEq, Repr

/-- Result record of the tag-based `parsedContent`. -/
structure TagResult where
  steps : List TagStep
  response : List Char
  isStreaming : Bool
deriving DecidableEq, Repr

/-- `steps.push({type, content: match[1].trim(), index: match.index})`
guarded by `if (match[1].trim())`. -/
def mkTagSteps (t : TagT) (sp : List (Nat × List Char)) : List TagStep :=
  sp.filterMap (fun p => if (trim p.2).isEmpty then none
                         else some { type := t, content := trim p.2, index := p.1 })

/-- Stable insertion by `index` (one step of `Array.prototype.sort` with
comparator `a.index - b.index`, which is stable). -/
def insertByIdx (x : TagStep) : List TagStep → List TagStep
  | [] => [x]
  | y :: ys => if x.index ≤ y.index then x :: y :: ys else y :: insertByIdx x ys

/-- Stable sort by `index` (`steps.sort((a, b) => a.index - b.index)`). -/
def sortByIdx : List TagStep → List TagStep
  | [] => []
  | x :: xs => insertByIdx x (sortByIdx xs)

/-- The tag-based `parsedContent` computed property: collect closed
`<think>…</think>` and `<tool_call>…</tool_call>` spans in document order,
remove them from the response, and truncate the response at a dangling
opening tag. -/
def parsedContentTag (content : List Char) : TagResult :=
  let thinkSp := tagSpans (str "<think>") (str "</think>") content
  let toolSp := tagSpans (str "<tool_call>") (str "</tool_call>") content
  let steps := sortByIdx (mkTagSteps TagT.thought thinkSp ++ mkTagSteps TagT.action toolSp)
  let thinkOpen := countSub (str "<think>") content
  let thinkClose := countSub (str "</think>") content
  let toolOpen := countSub (str "<tool_call>") content
  let toolClose := countSub (str "</tool_call>") content
  let r0 := removePairs (str "<tool_call>") (str "</tool_call>")
              (removePairs (str "<think>") (str "</think>") content)
  let r1 :=
    if thinkClose < thinkOpen then
      match lastSub (str "<think>") r0 with
      | some i => r0.take i
      | none => r0
    else r0
  let r2 :=
    if toolClose < toolOpen then
      match lastSub (str "<tool_call>") r1 with
      | some i => r1.take i
      | none => r1
    else r1
  { steps := steps, response := trim r2,
    isStreaming := decide (thinkClose < thinkOpen) || decide (toolClose < toolOpen) }

/-- The `streamingStep` computed property: the dangling open tag, if any,
as an in-progress step (`content.substring(lastIndexOf(tag) + tag.length)`). -/
def streamingStepTag (content : List Char) : Option (TagT × List Char) :=
  if countSub (str "</think>") content < countSub (str "<think>") content then
    match lastSub (str "<think>") content with
    | some i => some (TagT.thought, trim (content.drop (i + 7)))
    | none => some (TagT.thought, trim (content.drop 6))
  else if countSub (str "</tool_call>") content < countSub (str "<tool_call>") content then
    match lastSub (str "<tool_call>") content with
    | some i => some (TagT.action, trim (content.drop (i + 11)))
    | none => some (TagT.action, trim (content.drop 10))
  else none

/-- The `allSteps` computed property: parsed steps plus the streaming one,
projected to (kind, content). -/
def allStepsTag (content : List Char) : List (TagT × List Char) :=
  ((parsedContentTag content).steps.map (fun s => (s.type, s.content))) ++
    (match streamingStepTag content with
     | some s => [s]
     | none => [])

/-- Message role. -/
inductive Role
  | user
  | assistant
deriving DecidableEq, Repr

/-- A chat message (`{id, role, content}`). -/
structure Msg where
  id : Nat
  role : Role
  content : List Char
deriving DecidableEq, Repr

/-- Page-level state touched by `handleSend`
(`messages`, `isLoading`, `streamingMessageId`). -/
structure AgentState where
  messages : List Msg
  isLoading : Bool
  streamingMessageId : Option Nat
deriving DecidableEq, Repr

/-- `messages.value.find((m) => m.id === aiMessageId)` followed by a mutation
of the found message: update the first message with the given id. -/
def updateFirst (f : Msg → Msg) (aiId : Nat) : List Msg → List Msg
  | [] => []
  | m :: ms => if m.id = aiId then f m :: ms else m :: updateFirst f aiId ms

/-- The error text written in the `catch` branch:
`msg.content = ` followed by the error marker and the error. -/
def errMarker (e : List Char) : List Char := str "❌ 错误: " ++ e

/-- The `try/catch/finally` tail of `handleSend` in `AgentPage.vue` /
`agent/Index.vue`: on error replace the streaming assistant message's
content with the error marker; in all cases clear the loading flag and
reset the streaming message id. -/
def handleSendFinish (outcome : Except (List Char) Unit) (aiId : Nat)
    (st : AgentState) : AgentState :=
  let st1 :=
    match outcome with
    | Except.error e =>
      { st with messages :=
          updateFirst (fun m => { m with content := errMarker e }) aiId st.messages }
    | Except.ok _ => st
  { st1 with isLoading := false, streamingMessageId := none }

/-- State of `ChatInput.vue` relevant to `handleSend`. -/
structure ChatInputState where
  inputMessage : List Char
  disabled : Bool
deriving DecidableEq, Repr

/-- `handleSend` of `ChatInput.vue`: emit `'send'` with the untrimmed input
and clear the buffer, unless the trimmed input is empty or the component is
disabled. -/
def handleSendInput (st : ChatInputState) : ChatInputState × Option (List Char) :=
  if (trim st.inputMessage).isEmpty || st.disabled then (st, none)
  else ({ st with inputMessage := [] }, some st.inputMessage)

/-- A line that triggers none of the CoT loop's special branches:
no think tag, no marker prefix.  Such a line is accumulated verbatim. -/
def plainCotLine (l : List Char) : Bool :=
  !hasThinkOpen l && !hasThinkClose l &&
  !(str "Planning:").isPrefixOf l && !isStepLine l &&
  !(str "Tool:").isPrefixOf l && !(str "Tool Input:").isPrefixOf l &&
  !(str "Result:").isPrefixOf l && !(str "Summary:").isPrefixOf l

theorem updateFirst_mem_err (ms : List Msg) (aiId : Nat) (e : List Char) :
    (∃ m ∈ ms, m.id = aiId) →
    ∃ m2 ∈ updateFirst (fun m => { m with content := errMarker e }) aiId ms,
      m2.id = aiId ∧ m2.content = errMarker e := by
  induction ms with
  | nil => rintro ⟨m, hm, _⟩; cases hm
  | cons m ms ih =>
    rintro ⟨m', hm', hid⟩
    by_cases h : m.id = aiId
    · exact ⟨{ m with content := errMarker e }, by simp [updateFirst, h], by simp [h], rfl⟩
    · rcases List.mem_cons.mp hm' with rfl | hm'
      · exact absurd hid h
      · obtain ⟨m2, hmem, hi, hc⟩ := ih ⟨m', hm', hid⟩
        exact ⟨m2, by simp [updateFirst, h, hmem], hi, hc⟩

/-- C2: parsing is total and gracefully degrades: the parse of the empty
string and of a lone `"<think>"` is the empty step list with empty response,
and any content that is not recognized as CoT format is returned wholesale
(after tag cleaning) as plain response content with no steps, never an
error. -/
theorem c2_parse_total :
    parsedContentCot (str "") =
      { steps := [], response := [], isStreaming := false, hasSummary := true } ∧
    parsedContentCot (str "<think>") =
      { steps := [], response := [], isStreaming := false, hasSummary := true } ∧
    ∀ c, isCotFormat (cleanContent c) = false →
      parsedContentCot c =
        { steps := [], response := cleanContent c, isStreaming := false,
          hasSummary := true } := by
  refine ⟨by decide, by decide, ?_⟩
  intro c h
  simp [parsedContentCot, h]

/-- C2 witness: a malformed-marker buffer parses to a plain response. -/
theorem c2_parse_total_witness :
    parsedContentCot (str "Plannin: oops <think") =
      { steps := [], response := cleanContent (str "Plannin: oops <think"),
        isStreaming := false, hasSummary := true } :=
  c2_parse_total.2.2 (str "Plannin: oops <think") (by decide)

/-- C3: the buffer `"<think>partial reasoning"` yields exactly one Thinking
step with content `"partial reasoning"`, an empty response, and the
streaming flag set. -/
theorem c3_unterminated_think :
    allStepsTag (str "<think>partial reasoning") =
      [(TagT.thought, str "partial reasoning")] ∧
    (parsedContentTag (str "<think>partial reasoning")).response = [] ∧
    (parsedContentTag (str "<think>partial reasoning")).isStreaming = true := by
  refine ⟨by decide, by decide, by decide⟩

/-- C4: the well-formed buffer `"Planning: do X\nStep 1: did Y\nSummary: done"`
parses to the two steps planning "do X" and step "did Y", response "done",
not streaming. -/
theorem c4_round_trip :
    parsedContentCot (str "Planning: do X\nStep 1: did Y\nSummary: done") =
      { steps := [(CotT.planning, str "do X"), (CotT.step, str "did Y")],
        response := str "done", isStreaming := false, hasSummary := true } := by
  decide

/-- C5 counterexample: in the CoT family the buffer `"Summary: done"` has a
line beginning with the terminal marker, but because no `Planning:`/`Step n:`
marker makes it CoT format, the parser never enters terminal-marker handling:
the response is the whole line `"Summary: done"`, not the remainder `"done"`.
In the ReAct family the buffer `"Thought: x\nFinal Answer:   done"` yields the
response `"done"`, not the raw marker-line remainder `"   done"`: the
remainder is trimmed, not taken verbatim. -/
theorem c5_counterexample :
    ((parsedContentCot (str "Summary: done")).response = str "Summary: done" ∧
     (parsedContentCot (str "Summary: done")).response ≠ str "done") ∧
    ((parsedContentReact (str "Thought: x\nFinal Answer:   done")).response = str "done" ∧
     (parsedContentReact (str "Thought: x\nFinal Answer:   done")).response ≠
       str "   done") := by
  refine ⟨⟨by decide, by decide⟩, ⟨by decide, by decide⟩⟩

/-- C5 (amended): terminal-marker semantics in both families. CoT family: once
the line scan (in CoT-format buffers) reaches a line beginning with `Summary:`
outside a think block, the open step is flushed, step parsing terminates (the
remaining lines produce no further steps), and the response is `cleanContent`
of the marker line's trimmed remainder joined with all subsequent lines. ReAct
family: once the line scan (over the cleaned content of ReAct-format buffers)
reaches a line beginning with `Final Answer:`, the open step is flushed, step
parsing terminates, and the response is the trim of the marker line's trimmed
remainder joined with all subsequent lines. -/
theorem c5_terminal_marker :
    (∀ (st : CotState) (l : List Char) (ls : List (List Char)),
      hasThinkOpen l = false → hasThinkClose l = false → st.inThink = false →
      (str "Summary:").isPrefixOf l = true →
      cotLoop st (l :: ls) =
        ({ steps := flushCot st, currentType := none, currentContent := [],
           remaining := st.remaining, inThink := st.inThink },
         some (cleanContent (joinNL (trim (l.drop 8) :: ls))))) ∧
    (∀ (st : ReactState) (l : List Char) (ls : List (List Char)),
      (str "Final Answer:").isPrefixOf l = true →
      reactLoop st (l :: ls) =
        ({ steps := flushReact st, currentType := none, currentContent := [] },
         some (trim (joinNL (trim (l.drop 13) :: ls))))) := by
  constructor
  · intro st l ls h1 h2 h3 h4
    obtain ⟨t, rfl⟩ := List.isPrefixOf_iff_prefix.mp h4
    have hs : str "Summary:" = 'S' :: 'u' :: 'm' :: 'm' :: 'a' :: 'r' :: 'y' :: ':' :: [] := rfl
    rw [hs] at h1 h2 ⊢
    simp only [List.cons_append, List.nil_append] at h1 h2 ⊢
    simp [cotLoop, h1, h2, h3, isStepLine, List.isPrefixOf, str]
  · intro st l ls h4
    obtain ⟨t, rfl⟩ := List.isPrefixOf_iff_prefix.mp h4
    have hs : str "Final Answer:" = 'F' :: 'i' :: 'n' :: 'a' :: 'l' :: ' ' :: 'A' :: 'n' ::
        's' :: 'w' :: 'e' :: 'r' :: ':' :: [] := rfl
    rw [hs]
    simp only [List.cons_append, List.nil_append]
    simp [reactLoop, List.isPrefixOf, str]

/-- C5 witness: the `Summary:` and `Final Answer:` branches at concrete states
and lines. -/
theorem c5_terminal_marker_witness :
    cotLoop { steps := [], currentType := some CotT.planning,
              currentContent := [str "x"], remaining := [], inThink := false }
      (str "Summary: done" :: [str "more"]) =
      ({ steps := [(CotT.planning, str "x")], currentType := none,
         currentContent := [], remaining := [], inThink := false },
       some (cleanContent (joinNL (trim ((str "Summary: done").drop 8) :: [str "more"])))) ∧
    reactLoop { steps := [], currentType := some ReactT.thought,
                currentContent := [str "x"] }
      (str "Final Answer: done" :: [str "more"]) =
      ({ steps := [(ReactT.thought, str "x")], currentType := none,
         currentContent := [] },
       some (trim (joinNL (trim ((str "Final Answer: done").drop 13) :: [str "more"])))) := by
  constructor
  · have h := c5_terminal_marker.1
      { steps := [], currentType := some CotT.planning,
        currentContent := [str "x"], remaining := [], inThink := false }
      (str "Summary: done") [str "more"] (by decide) (by decide) rfl (by decide)
    rw [h]
    decide
  · have h := c5_terminal_marker.2
      { steps := [], currentType := some ReactT.thought, currentContent := [str "x"] }
      (str "Final Answer: done") [str "more"] (by decide)
    rw [h]
    decide

/-- C6: the streaming flag is a pure function of the buffer: it is set
exactly when the buffer is CoT format, contains a `Planning:`/`Step`
marker, contains no `Summary:`, and the computed response is empty. -/
theorem c6_streaming_iff (c : List Char) :
    (parsedContentCot c).isStreaming =
      (isCotFormat (cleanContent c) &&
       ((findSub (str "Planning:") c).isSome || (findSub (str "Step") c).isSome) &&
       !(findSub (str "Summary:") c).isSome &&
       (parsedContentCot c).response.isEmpty) := by
  by_cases h : isCotFormat (cleanContent c)
  · simp [parsedContentCot, h]
  · simp [parsedContentCot, h]

/-- C8 counterexample: in `"Planning: a\n# h\nPlanning: b"` the markdown
heading flushes the step and starts response accumulation, but the later
`Planning: b` marker line does not accumulate as response: it re-enters
step mode and clears the accumulated lines, so the response is empty and a
second planning step is produced — not "all remaining lines become the
final response". -/
theorem c8_counterexample :
    parsedContentCot (str "Planning: a\n# h\nPlanning: b") =
      { steps := [(CotT.planning, str "a"), (CotT.planning, str "b")],
        response := [], isStreaming := true, hasSummary := false } ∧
    (parsedContentCot (str "Planning: a\n# h\nPlanning: b")).response ≠
      str "# h\nPlanning: b" := by
  refine ⟨by decide, by decide⟩

/-- C8 (amended): while a step is accumulating, a markdown heading or table
line flushes the current step and is routed to the trailing-response
accumulator; subsequent lines keep accumulating there as long as they are
plain (no marker, no think tag) — a later marker line, however, re-enters
step mode and discards the accumulated trailing content. -/
theorem c8_markdown_carveout :
    (∀ (st : CotState) (t : CotT) (l : List Char) (ls : List (List Char)),
      st.currentType = some t → st.inThink = false →
      hasThinkOpen l = false → hasThinkClose l = false →
      (str "Planning:").isPrefixOf l = false → isStepLine l = false →
      (str "Tool:").isPrefixOf l = false → (str "Tool Input:").isPrefixOf l = false →
      (str "Result:").isPrefixOf l = false → (str "Summary:").isPrefixOf l = false →
      (isMdHeading l || isMdTable l) = true →
      cotLoop st (l :: ls) =
        cotLoop { steps := flushCot st, currentType := none, currentContent := [],
                  remaining := st.remaining ++ [l], inThink := st.inThink } ls) ∧
    (∀ (ls : List (List Char)) (st : CotState),
      st.currentType = none → st.inThink = false →
      (∀ l ∈ ls, plainCotLine l = true) →
      cotLoop st ls = ({ st with remaining := st.remaining ++ ls }, none)) := by
  constructor
  · intro st t l ls hct hthink h1 h2 h3 h4 h5 h6 h7 h8 hmd
    simp [cotLoop, h1, h2, h3, h4, h5, h6, h7, h8, hthink, hct, hmd]
  · intro ls
    induction ls with
    | nil => intro st h1 h2 h3; simp [cotLoop]
    | cons l ls ih =>
      intro st h1 h2 h3
      have hl := h3 l (by simp)
      simp only [plainCotLine, Bool.and_eq_true, Bool.not_eq_true'] at hl
      obtain ⟨⟨⟨⟨⟨⟨⟨hl1, hl2⟩, hl3⟩, hl4⟩, hl5⟩, hl6⟩, hl7⟩, hl8⟩ := hl
      simp only [cotLoop, hl1, hl2, hl3, hl4, hl5, hl6, hl7, hl8, h1, h2]
      simp only [Bool.false_eq_true, if_false]
      rw [ih { st with currentType := none, remaining := st.remaining ++ [l], inThink := false }
            rfl rfl (fun x hx => h3 x (by simp [hx]))]
      simp [List.append_assoc]

/-- C8 witness: the carve-out branch at a concrete state and heading line,
followed by plain accumulation. -/
theorem c8_markdown_carveout_witness :
    cotLoop { steps := [], currentType := some CotT.step,
              currentContent := [str "y"], remaining := [], inThink := false }
      (str "# head" :: [str "tail"]) =
      ({ steps := [(CotT.step, str "y")], currentType := none, currentContent := [],
         remaining := [str "# head", str "tail"], inThink := false }, none) := by
  have h1 := c8_markdown_carveout.1
    { steps := [], currentType := some CotT.step,
      currentContent := [str "y"], remaining := [], inThink := false }
    CotT.step (str "# head") [str "tail"] rfl rfl (by decide) (by decide) (by decide)
    (by decide) (by decide) (by decide) (by decide) (by decide) (by decide)
  rw [h1]
  have h2 := c8_markdown_carveout.2 [str "tail"]
    { steps := flushCot { steps := [], currentType := some CotT.step,
                          currentContent := [str "y"], remaining := [], inThink := false },
      currentType := none, currentContent := [],
      remaining := [] ++ [str "# head"], inThink := false }
    rfl rfl (by decide)
  rw [h2]
  decide

/-- C9 counterexample: when the chat invocation fails, the error text
replaces the streaming message's content instead of being appended to it:
the partial content "partial" is gone from the message afterwards. -/
theorem c9_counterexample :
    (handleSendFinish (Except.error (str "boom")) 5
        { messages := [{ id := 5, role := Role.assistant, content := str "partial" }],
          isLoading := true, streamingMessageId := some 5 }) =
      { messages := [{ id := 5, role := Role.assistant, content := str "❌ 错误: boom" }],
        isLoading := false, streamingMessageId := none } ∧
    ¬ (str "partial" <+: str "❌ 错误: boom") := by
  refine ⟨by decide, by decide⟩

/-- C9 (amended): on a failed chat invocation the streaming assistant
message's content is replaced by a visible error marker, and the streaming
state is finalized: the loading flag is cleared and the streaming message
id is reset, for every state. -/
theorem c9_error_finalization (st : AgentState) (aiId : Nat) (e : List Char) :
    (handleSendFinish (Except.error e) aiId st).isLoading = false ∧
    (handleSendFinish (Except.error e) aiId st).streamingMessageId = none ∧
    ((∃ m ∈ st.messages, m.id = aiId) →
      ∃ m2 ∈ (handleSendFinish (Except.error e) aiId st).messages,
        m2.id = aiId ∧ m2.content = errMarker e) := by
  refine ⟨rfl, rfl, ?_⟩
  intro hex
  simpa [handleSendFinish] using updateFirst_mem_err st.messages aiId e hex

/-- C9 witness: finalization at a concrete failing state. -/
theorem c9_error_finalization_witness :
    (handleSendFinish (Except.error (str "net down")) 7
        { messages := [{ id := 7, role := Role.assistant, content := str "x" }],
          isLoading := true, streamingMessageId := some 7 }).isLoading = false ∧
    (handleSendFinish (Except.error (str "net down")) 7
        { messages := [{ id := 7, role := Role.assistant, content := str "x" }],
          isLoading := true, streamingMessageId := some 7 }).streamingMessageId = none ∧
    ∃ m2 ∈ (handleSendFinish (Except.error (str "net down")) 7
        { messages := [{ id := 7, role := Role.assistant, content := str "x" }],
          isLoading := true, streamingMessageId := some 7 }).messages,
      m2.id = 7 ∧ m2.content = errMarker (str "net down") := by
  have h := c9_error_finalization
    { messages := [{ id := 7, role := Role.assistant, content := str "x" }],
      isLoading := true, streamingMessageId := some 7 } 7 (str "net down")
  exact ⟨h.1, h.2.1, h.2.2 ⟨{ id := 7, role := Role.assistant, content := str "x" },
    by simp, rfl⟩⟩

/-- C10: the chat input emits `'send'` exactly when the trimmed input is
non-empty and the component is not disabled; on emit the payload is the
full untrimmed text and the buffer is cleared; otherwise state is
unchanged and nothing is emitted. -/
theorem c10_send_guard (st : ChatInputState) :
    (((handleSendInput st).2 ≠ none) ↔
      ((trim st.inputMessage).isEmpty = false ∧ st.disabled = false)) ∧
    (∀ p, (handleSendInput st).2 = some p →
      p = st.inputMessage ∧ (handleSendInput st).1.inputMessage = []) ∧
    ((handleSendInput st).2 = none → (handleSendInput st).1 = st) := by
  cases h1 : (trim st.inputMessage).isEmpty <;> cases h2 : st.disabled <;>
    simp [handleSendInput, h1, h2]

/-- C10 witness: a concrete non-empty enabled input emits and clears. -/
theorem c10_send_guard_witness :
    (handleSendInput { inputMessage := str " hi ", disabled := false }).2 =
      some (str " hi ") ∧
    (handleSendInput { inputMessage := str " hi ", disabled := false }).1.inputMessage = [] := by
  have h := (c10_send_guard { inputMessage := str " hi ", disabled := false }).2.1
    (str " hi ") (by decide)
  exact ⟨by decide, h.2⟩


theorem not_prefix_of_isPrefixOf_false {pat s : List Char}
    (h : pat.isPrefixOf s = false) : ¬ pat <+: s := fun hx => by
  simp [List.isPrefixOf_iff_prefix.mpr hx] at h

theorem findSub_eq_some_iff {pat s : List Char} {i : Nat} :
    findSub pat s = some i ↔ pat <+: s.drop i ∧ ∀ j < i, ¬ pat <+: s.drop j := by
  induction s generalizing i with
  | nil =>
    simp only [findSub]
    cases hb : pat.isPrefixOf ([] : List Char) with
    | false =>
      have hnp := not_prefix_of_isPrefixOf_false hb
      simp only [Bool.false_eq_true, if_false]
      constructor
      · intro h; cases h
      · rintro ⟨h1, -⟩
        rw [List.drop_nil] at h1
        exact absurd h1 hnp
    | true =>
      have hp : pat <+: ([] : List Char) := List.isPrefixOf_iff_prefix.mp hb
      simp only [if_true]
      constructor
      · intro h
        cases h
        exact ⟨by simpa using hp, by omega⟩
      · rintro ⟨-, h2⟩
        cases i with
        | zero => rfl
        | succ i' => exact absurd (by simpa using hp) (h2 0 (by omega))
  | cons c cs ih =>
    cases hb : pat.isPrefixOf (c :: cs) with
    | true =>
      have hp : pat <+: (c :: cs) := List.isPrefixOf_iff_prefix.mp hb
      simp only [findSub, hb, if_true]
      constructor
      · intro h
        cases h
        exact ⟨by simpa using hp, by omega⟩
      · rintro ⟨-, h2⟩
        cases i with
        | zero => rfl
        | succ i' => exact absurd (by simpa using hp) (h2 0 (by omega))
    | false =>
      have hnp := not_prefix_of_isPrefixOf_false hb
      simp only [findSub, hb, Bool.false_eq_true, if_false, Option.map_eq_some']
      constructor
      · rintro ⟨i', hi', rfl⟩
        obtain ⟨h1, h2⟩ := ih.mp hi'
        refine ⟨by simpa using h1, ?_⟩
        intro j hj
        cases j with
        | zero => simpa using hnp
        | succ j' => exact fun hpre => h2 j' (by omega) (by simpa using hpre)
      · rintro ⟨h1, h2⟩
        cases i with
        | zero => exact absurd (by simpa using h1) hnp
        | succ i' =>
          refine ⟨i', ih.mpr ⟨by simpa using h1, ?_⟩, rfl⟩
          intro j hj hpre
          exact h2 (j + 1) (by omega) (by simpa using hpre)

theorem findSub_eq_none_iff {pat s : List Char} :
    findSub pat s = none ↔ ∀ j, ¬ pat <+: s.drop j := by
  induction s with
  | nil =>
    simp only [findSub]
    cases hb : pat.isPrefixOf ([] : List Char) with
    | false =>
      have hnp := not_prefix_of_isPrefixOf_false hb
      simp only [Bool.false_eq_true, if_false, true_iff]
      intro j
      rw [List.drop_nil]
      exact hnp
    | true =>
      have hp : pat <+: ([] : List Char) := List.isPrefixOf_iff_prefix.mp hb
      simp only [if_true]
      constructor
      · intro h; cases h
      · intro h; exact absurd (by simpa using hp : pat <+: List.drop 0 ([] : List Char)) (h 0)
  | cons c cs ih =>
    cases hb : pat.isPrefixOf (c :: cs) with
    | true =>
      have hp : pat <+: (c :: cs) := List.isPrefixOf_iff_prefix.mp hb
      simp only [findSub, hb, if_true]
      constructor
      · intro h; cases h
      · intro h; exact absurd (by simpa using hp : pat <+: List.drop 0 (c :: cs)) (h 0)
    | false =>
      have hnp := not_prefix_of_isPrefixOf_false hb
      simp only [findSub, hb, Bool.false_eq_true, if_false, Option.map_eq_none', ih]
      constructor
      · intro h j
        cases j with
        | zero => simpa using hnp
        | succ j' => simpa using h j'
      · intro h j'
        simpa using h (j' + 1)

theorem findSub_some_bound {pat s : List Char} {i : Nat} (h : findSub pat s = some i) :
    i + pat.length ≤ s.length := by
  induction s generalizing i with
  | nil =>
    simp only [findSub] at h
    cases hb : pat.isPrefixOf ([] : List Char) with
    | false => rw [hb] at h; cases h
    | true =>
      rw [hb] at h
      simp only [if_true] at h
      cases h
      have := (List.isPrefixOf_iff_prefix.mp hb).length_le
      simpa using this
  | cons c cs ih =>
    cases hb : pat.isPrefixOf (c :: cs) with
    | true =>
      simp only [findSub, hb, if_true] at h
      cases h
      have := (List.isPrefixOf_iff_prefix.mp hb).length_le
      simpa using this
    | false =>
      simp only [findSub, hb, Bool.false_eq_true, if_false, Option.map_eq_some'] at h
      obtain ⟨i2, hi2, rfl⟩ := h
      have := ih hi2
      simp only [List.length_cons]
      omega

theorem prefix_append_left_of_le {l1 l2 l3 : List Char}
    (h : l1 <+: l2 ++ l3) (hlen : l1.length ≤ l2.length) : l1 <+: l2 := by
  rw [List.prefix_iff_eq_take] at h ⊢
  rw [List.take_append_eq_append_take] at h
  rw [Nat.sub_eq_zero_of_le hlen, List.take_zero, List.append_nil] at h
  exact h

theorem prefix_drop_append_left {pat a b : List Char} {k : Nat}
    (h : pat <+: (a ++ b).drop k) (hk : k + pat.length ≤ a.length) : pat <+: a.drop k := by
  rw [List.drop_append_eq_append_drop] at h
  refine prefix_append_left_of_le h ?_
  simp only [List.length_drop]
  omega

theorem prefix_drop_append_ext {pat a : List Char} (b : List Char) {k : Nat}
    (h : pat <+: a.drop k) : pat <+: (a ++ b).drop k := by
  rw [List.drop_append_eq_append_drop]
  exact h.trans (List.prefix_append _ _)

theorem occ_append_bound {pat s d : List Char} {k : Nat}
    (hpat : pat ≠ []) (hd : d ≠ [])
    (h1 : ∀ c0, d.head? = some c0 → c0 ∉ pat)
    (h2 : ∀ p0, pat.head? = some p0 → p0 ∉ d)
    (h : pat <+: (s ++ d).drop k) : k + pat.length ≤ s.length := by
  by_contra hlt
  push_neg at hlt
  by_cases hk : s.length ≤ k
  · -- occurrence entirely inside d
    rw [List.drop_append_eq_append_drop, List.drop_of_length_le hk, List.nil_append] at h
    obtain ⟨p0, pt, rfl⟩ := List.exists_cons_of_ne_nil hpat
    have hne : d.drop (k - s.length) ≠ [] := by
      intro hnil
      rw [hnil, List.prefix_nil] at h
      cases h
    obtain ⟨c, ct, hct⟩ := List.exists_cons_of_ne_nil hne
    rw [hct] at h
    have : p0 = c := by
      have := List.prefix_iff_eq_take.mp h
      simpa using congrArg List.head? this
    subst this
    have : p0 ∈ d := by
      have : p0 ∈ d.drop (k - s.length) := by rw [hct]; exact List.mem_cons_self _ _
      exact List.mem_of_mem_drop this
    exact h2 p0 rfl this
  · -- occurrence straddles the boundary: position s.length holds d.head
    push_neg at hk
    obtain ⟨c0, ct, rfl⟩ := List.exists_cons_of_ne_nil hd
    have hsplit : (s ++ c0 :: ct).drop k = s.drop k ++ c0 :: ct := by
      rw [List.drop_append_eq_append_drop, Nat.sub_eq_zero_of_le (by omega), List.drop_zero]
    rw [hsplit] at h
    obtain ⟨t, ht⟩ := h
    have hlen1 : (s.drop k).length = s.length - k := by simp
    have htail := congrArg (List.drop (s.length - k)) ht
    rw [List.drop_append_eq_append_drop, List.drop_append_eq_append_drop] at htail
    rw [← hlen1, List.drop_length, List.nil_append] at htail
    have hz : s.length - k - pat.length = 0 := by omega
    rw [hlen1, hz, List.drop_zero] at htail
    rw [Nat.sub_self, List.drop_zero] at htail
    have hne : pat.drop (s.length - k) ≠ [] := by
      intro hnil
      have := congrArg List.length hnil
      simp only [List.length_drop, List.length_nil] at this
      omega
    obtain ⟨x, xs, hx⟩ := List.exists_cons_of_ne_nil hne
    rw [hx, List.cons_append] at htail
    have hx0 : x = c0 := (List.cons.injEq _ _ _ _).mp htail |>.1
    have : x ∈ pat := List.mem_of_mem_drop (hx ▸ List.mem_cons_self x xs)
    rw [hx0] at this
    exact h1 c0 rfl this

theorem findSub_append_eq {pat s d : List Char}
    (hocc : ∀ k, pat <+: (s ++ d).drop k → k + pat.length ≤ s.length) :
    findSub pat (s ++ d) = findSub pat s := by
  cases hf : findSub pat s with
  | some i =>
    obtain ⟨hp, hmin⟩ := findSub_eq_some_iff.mp hf
    refine findSub_eq_some_iff.mpr ⟨prefix_drop_append_ext d hp, ?_⟩
    intro j hj hpre
    exact hmin j hj (prefix_drop_append_left hpre (hocc j hpre))
  | none =>
    refine findSub_eq_none_iff.mpr ?_
    intro j hpre
    exact (findSub_eq_none_iff.mp hf) j (prefix_drop_append_left hpre (hocc j hpre))

theorem isPrefixOf_nil_false {pat : List Char} (h : pat ≠ []) :
    pat.isPrefixOf ([] : List Char) = false := by
  cases pat with
  | nil => simp at h
  | cons a as => rfl

theorem findSub_nil_of_ne {pat : List Char} (h : pat ≠ []) :
    findSub pat ([] : List Char) = none := by
  simp [findSub, isPrefixOf_nil_false h]

theorem tagScanF_succ_none {op cl s : List Char} {f : Nat}
    (h : findSub op s = none) : tagScanF op cl (f + 1) s = ([], true) := by
  simp [tagScanF, h]

theorem tagScanF_succ_opn {op cl s : List Char} {f i : Nat}
    (h : findSub op s = some i)
    (h2 : findSub cl (s.drop (i + op.length)) = none) :
    tagScanF op cl (f + 1) s = ([], false) := by
  simp [tagScanF, h, h2]

theorem tagScanF_succ_pair {op cl s : List Char} {f i j : Nat}
    (h : findSub op s = some i)
    (h2 : findSub cl (s.drop (i + op.length)) = some j) :
    tagScanF op cl (f + 1) s =
      ((i, (s.drop (i + op.length)).take j) ::
        (tagScanF op cl f ((s.drop (i + op.length)).drop (j + cl.length))).1.map
          (fun p => (p.1 + (i + op.length + j + cl.length), p.2)),
       (tagScanF op cl f ((s.drop (i + op.length)).drop (j + cl.length))).2) := by
  simp [tagScanF, h, h2]

theorem length_pos_of_ne_nil {l : List Char} (h : l ≠ []) : 1 ≤ l.length := by
  cases l with
  | nil => simp at h
  | cons a as => simp

theorem tagScanF_congr (op cl : List Char) (hop : op ≠ []) :
    ∀ f1 f2 s, s.length ≤ f1 → s.length ≤ f2 →
      tagScanF op cl f1 s = tagScanF op cl f2 s := by
  intro f1
  induction f1 with
  | zero =>
    intro f2 s h1 h2
    have : s = [] := List.length_eq_zero.mp (by omega)
    subst this
    cases f2 with
    | zero => rfl
    | succ f2 => rw [tagScanF_succ_none (findSub_nil_of_ne hop)]; rfl
  | succ f1 ih =>
    intro f2 s h1 h2
    cases f2 with
    | zero =>
      have : s = [] := List.length_eq_zero.mp (by omega)
      subst this
      rw [tagScanF_succ_none (findSub_nil_of_ne hop)]
      rfl
    | succ f2 =>
      cases hf : findSub op s with
      | none => rw [tagScanF_succ_none hf, tagScanF_succ_none hf]
      | some i =>
        cases hfc : findSub cl (s.drop (i + op.length)) with
        | none => rw [tagScanF_succ_opn hf hfc, tagScanF_succ_opn hf hfc]
        | some j =>
          rw [tagScanF_succ_pair hf hfc, tagScanF_succ_pair hf hfc]
          have hib := findSub_some_bound hf
          have hjb := findSub_some_bound hfc
          have hopl := length_pos_of_ne_nil hop
          have hlen : ((s.drop (i + op.length)).drop (j + cl.length)).length ≤ s.length - 1 := by
            simp only [List.length_drop] at hjb ⊢
            omega
          rw [ih f2 _ (by omega) (by omega)]

theorem tagScan_ub (op cl : List Char) :
    ∀ f s, ∀ p ∈ (tagScanF op cl f s).1, p.1 + op.length + cl.length ≤ s.length := by
  intro f
  induction f with
  | zero => intro s p hp; simp [tagScanF] at hp
  | succ f ih =>
    intro s p hp
    cases hf : findSub op s with
    | none => rw [tagScanF_succ_none hf] at hp; simp at hp
    | some i =>
      cases hfc : findSub cl (s.drop (i + op.length)) with
      | none => rw [tagScanF_succ_opn hf hfc] at hp; simp at hp
      | some j =>
        rw [tagScanF_succ_pair hf hfc] at hp
        have hib := findSub_some_bound hf
        have hjb := findSub_some_bound hfc
        simp only [List.length_drop] at hjb
        simp only [List.mem_cons, List.mem_map] at hp
        rcases hp with rfl | ⟨q, hq, rfl⟩
        · simp only
          omega
        · have := ih _ q hq
          simp only [List.length_drop] at this
          simp only
          omega

theorem tagScan_lb (op cl : List Char) (f : Nat) (s : List Char) {i : Nat}
    (hf : findSub op s = some i) :
    ∀ p ∈ (tagScanF op cl (f + 1) s).1, i ≤ p.1 := by
  intro p hp
  cases hfc : findSub cl (s.drop (i + op.length)) with
  | none => rw [tagScanF_succ_opn hf hfc] at hp; simp at hp
  | some j =>
    rw [tagScanF_succ_pair hf hfc] at hp
    simp only [List.mem_cons, List.mem_map] at hp
    rcases hp with rfl | ⟨q, hq, rfl⟩
    · exact Nat.le_refl _
    · simp only
      omega

theorem tagScan_append (op cl : List Char) (hop : op ≠ []) (hcl : cl ≠ []) :
    ∀ f P S, P.length + S.length ≤ f → (tagScanF op cl f P).2 = true →
      ∃ T, (tagScanF op cl f (P ++ S)).1 = (tagScanF op cl f P).1 ++ T ∧
        ∀ p ∈ T, P.length < p.1 + op.length := by
  intro f
  induction f with
  | zero =>
    intro P S hlen _
    have hP : P = [] := List.length_eq_zero.mp (by omega)
    have hS : S = [] := List.length_eq_zero.mp (by omega)
    subst hP; subst hS
    exact ⟨[], by simp [tagScanF], by simp⟩
  | succ f ih =>
    intro P S hlen hclosed
    cases hfP : findSub op P with
    | none =>
      have h1 : (tagScanF op cl (f + 1) P).1 = [] := by rw [tagScanF_succ_none hfP]
      cases hfPS : findSub op (P ++ S) with
      | none =>
        refine ⟨[], ?_, by simp⟩
        rw [tagScanF_succ_none hfPS, h1]
        rfl
      | some q =>
        have hqb : P.length < q + op.length := by
          by_contra hle
          push_neg at hle
          have hpre := (findSub_eq_some_iff.mp hfPS).1
          exact (findSub_eq_none_iff.mp hfP) q (prefix_drop_append_left hpre hle)
        refine ⟨(tagScanF op cl (f + 1) (P ++ S)).1, by rw [h1]; simp, ?_⟩
        intro p hp
        have := tagScan_lb op cl f (P ++ S) hfPS p hp
        omega
    | some i =>
      cases hfc : findSub cl (P.drop (i + op.length)) with
      | none =>
        rw [tagScanF_succ_opn hfP hfc] at hclosed
        cases hclosed
      | some j =>
        have hib := findSub_some_bound hfP
        have hjb := findSub_some_bound hfc
        simp only [List.length_drop] at hjb
        have hopl := length_pos_of_ne_nil hop
        have hcll := length_pos_of_ne_nil hcl
        -- the first opening marker is found at the same place in P ++ S
        have hfPS : findSub op (P ++ S) = some i := by
          obtain ⟨hp1, hp2⟩ := findSub_eq_some_iff.mp hfP
          refine findSub_eq_some_iff.mpr ⟨prefix_drop_append_ext S hp1, ?_⟩
          intro j2 hj2 hpre
          exact hp2 j2 hj2 (prefix_drop_append_left hpre (by omega))
        have hrest : (P ++ S).drop (i + op.length) = P.drop (i + op.length) ++ S := by
          rw [List.drop_append_eq_append_drop, Nat.sub_eq_zero_of_le (by omega), List.drop_zero]
        -- the first closing marker likewise
        have hfcPS : findSub cl ((P ++ S).drop (i + op.length)) = some j := by
          rw [hrest]
          obtain ⟨hp1, hp2⟩ := findSub_eq_some_iff.mp hfc
          refine findSub_eq_some_iff.mpr ⟨prefix_drop_append_ext S hp1, ?_⟩
          intro j2 hj2 hpre
          refine hp2 j2 hj2 (prefix_drop_append_left hpre ?_)
          simp only [List.length_drop]
          omega
        have htake : ((P ++ S).drop (i + op.length)).take j =
            (P.drop (i + op.length)).take j := by
          rw [hrest, List.take_append_eq_append_take, Nat.sub_eq_zero_of_le (by simp; omega),
            List.take_zero, List.append_nil]
        have hdrop : ((P ++ S).drop (i + op.length)).drop (j + cl.length) =
            (P.drop (i + op.length)).drop (j + cl.length) ++ S := by
          rw [hrest, List.drop_append_eq_append_drop, Nat.sub_eq_zero_of_le (by simp; omega),
            List.drop_zero]
        have hclosed2 : (tagScanF op cl f ((P.drop (i + op.length)).drop (j + cl.length))).2 = true := by
          rw [tagScanF_succ_pair hfP hfc] at hclosed
          exact hclosed
        have hlens : ((P.drop (i + op.length)).drop (j + cl.length)).length + S.length ≤ f := by
          simp only [List.length_drop]
          omega
        obtain ⟨T2, hT2, hbT2⟩ := ih _ S hlens hclosed2
        refine ⟨T2.map (fun p => (p.1 + (i + op.length + j + cl.length), p.2)), ?_, ?_⟩
        · rw [tagScanF_succ_pair hfPS hfcPS, tagScanF_succ_pair hfP hfc, htake, hdrop, hT2]
          simp [List.map_append]
        · intro p hp
          simp only [List.mem_map] at hp
          obtain ⟨q, hq, rfl⟩ := hp
          have := hbT2 q hq
          simp only [List.length_drop] at this
          simp only
          omega

theorem tagSpans_append {op cl : List Char} (hop : op ≠ []) (hcl : cl ≠ [])
    (P S : List Char) (hclosed : tagClosed op cl P = true) :
    ∃ T, tagSpans op cl (P ++ S) = tagSpans op cl P ++ T ∧
      ∀ p ∈ T, P.length < p.1 + op.length := by
  have hc1 : tagScanF op cl ((P ++ S).length) (P ++ S) =
      tagScanF op cl (P.length + S.length) (P ++ S) := by
    exact tagScanF_congr op cl hop ((P ++ S).length) (P.length + S.length) (P ++ S)
      (Nat.le_refl _) (by simp)
  have hc2 : tagScanF op cl P.length P = tagScanF op cl (P.length + S.length) P :=
    tagScanF_congr op cl hop P.length (P.length + S.length) P (Nat.le_refl _) (by omega)
  obtain ⟨T, hT, hb⟩ := tagScan_append op cl hop hcl (P.length + S.length) P S
    (Nat.le_refl (P.length + S.length)) (by rw [← hc2]; exact hclosed)
  refine ⟨T, ?_, hb⟩
  rw [tagSpans, tagSpans, hc1, hc2, hT]

theorem tagSpans_ub {op cl : List Char} (s : List Char) :
    ∀ p ∈ tagSpans op cl s, p.1 + op.length + cl.length ≤ s.length :=
  fun p hp => tagScan_ub op cl s.length s p hp

theorem mem_insertByIdx {x y : TagStep} {l : List TagStep} :
    y ∈ insertByIdx x l ↔ y = x ∨ y ∈ l := by
  induction l with
  | nil => simp [insertByIdx]
  | cons a as ih =>
    simp only [insertByIdx]
    by_cases h : x.index ≤ a.index
    · simp [h]
    · simp only [h, if_false, List.mem_cons, ih]
      tauto

theorem mem_sortByIdx {y : TagStep} {l : List TagStep} :
    y ∈ sortByIdx l ↔ y ∈ l := by
  induction l with
  | nil => simp [sortByIdx]
  | cons a as ih =>
    simp only [sortByIdx, mem_insertByIdx, ih, List.mem_cons]

theorem insertByIdx_append_ge (x : TagStep) (A B : List TagStep)
    (h : ∀ b ∈ B, x.index ≤ b.index) :
    insertByIdx x (A ++ B) = insertByIdx x A ++ B := by
  induction A with
  | nil =>
    cases B with
    | nil => rfl
    | cons b bs =>
      simp only [List.nil_append, insertByIdx, h b (by simp), if_true]
      rfl
  | cons a as ih =>
    simp only [List.cons_append, insertByIdx]
    by_cases hx : x.index ≤ a.index
    · simp [hx]
    · simp [hx, ih]

theorem insertByIdx_append_lt (x : TagStep) (A B : List TagStep)
    (h : ∀ a ∈ A, ¬ x.index ≤ a.index) :
    insertByIdx x (A ++ B) = A ++ insertByIdx x B := by
  induction A with
  | nil => rfl
  | cons a as ih =>
    simp only [List.cons_append, insertByIdx, h a (by simp), if_false]
    rw [show as.append B = as ++ B from rfl, ih (fun a2 ha2 => h a2 (by simp [ha2]))]

theorem sortByIdx_split (p : TagStep → Bool)
    (hsep : ∀ x y, p x = true → p y = false → x.index < y.index) :
    ∀ l, sortByIdx l = sortByIdx (l.filter p) ++ sortByIdx (l.filter (fun a => !p a)) := by
  intro l
  induction l with
  | nil => rfl
  | cons x l ih =>
    cases hx : p x with
    | true =>
      have hfp : (x :: l).filter p = x :: l.filter p := by simp [List.filter_cons, hx]
      have hfn : (x :: l).filter (fun a => !p a) = l.filter (fun a => !p a) := by
        simp [List.filter_cons, hx]
      rw [hfp, hfn, sortByIdx, sortByIdx, ih]
      refine insertByIdx_append_ge x _ _ ?_
      intro b hb
      have hbmem : b ∈ l.filter (fun a => !p a) := mem_sortByIdx.mp hb
      have hbp : p b = false := by
        have := List.of_mem_filter hbmem
        simpa using this
      exact Nat.le_of_lt (hsep x b hx hbp)
    | false =>
      have hfp : (x :: l).filter p = l.filter p := by simp [List.filter_cons, hx]
      have hfn : (x :: l).filter (fun a => !p a) = x :: l.filter (fun a => !p a) := by
        simp [List.filter_cons, hx]
      rw [hfp, hfn, sortByIdx, sortByIdx, ih]
      refine insertByIdx_append_lt x _ _ ?_
      intro a ha
      have hamem : a ∈ l.filter p := mem_sortByIdx.mp ha
      have hap : p a = true := List.of_mem_filter hamem
      have := hsep a x hap hx
      omega

theorem mem_mkTagSteps {t : TagT} {sp : List (Nat × List Char)} {a : TagStep}
    (h : a ∈ mkTagSteps t sp) : ∃ q ∈ sp, a.index = q.1 := by
  simp only [mkTagSteps, List.mem_filterMap] at h
  obtain ⟨q, hq, hsome⟩ := h
  by_cases he : (trim q.2).isEmpty
  · simp [he] at hsome
  · simp only [he, Bool.false_eq_true, if_false, Option.some.injEq] at hsome
    exact ⟨q, hq, by rw [← hsome]⟩

theorem mkTagSteps_append (t : TagT) (sp1 sp2 : List (Nat × List Char)) :
    mkTagSteps t (sp1 ++ sp2) = mkTagSteps t sp1 ++ mkTagSteps t sp2 := by
  simp [mkTagSteps, List.filterMap_append]

/-- C1 (amended): for every buffer `B = P ++ S` and every prefix `P` whose
tag scan leaves no unterminated opening tag of either kind (in particular a
prefix ending immediately after a closing tag with all earlier tags of both
kinds closed), the step list of `parse(P)` is a prefix of the step list of
`parse(B)`: closed steps appear unchanged, in order. -/
theorem c1_steps_stable (P S : List Char)
    (hthink : tagClosed (str "<think>") (str "</think>") P = true)
    (htool : tagClosed (str "<tool_call>") (str "</tool_call>") P = true) :
    (parsedContentTag P).steps <+: (parsedContentTag (P ++ S)).steps := by
  have hsteps : ∀ c, (parsedContentTag c).steps =
      sortByIdx (mkTagSteps TagT.thought (tagSpans (str "<think>") (str "</think>") c) ++
        mkTagSteps TagT.action (tagSpans (str "<tool_call>") (str "</tool_call>") c)) :=
    fun c => rfl
  obtain ⟨T1, hT1, hb1⟩ := tagSpans_append (by decide) (by decide) P S hthink
  obtain ⟨T2, hT2, hb2⟩ := tagSpans_append (by decide) (by decide) P S htool
  rw [hsteps, hsteps, hT1, hT2, mkTagSteps_append, mkTagSteps_append]
  have hA1 : ∀ a ∈ mkTagSteps TagT.thought (tagSpans (str "<think>") (str "</think>") P),
      a.index + 11 ≤ P.length := by
    intro a ha
    obtain ⟨q, hq, hidx⟩ := mem_mkTagSteps ha
    have := tagSpans_ub P q hq
    have h7 : (str "<think>").length = 7 := rfl
    have h8 : (str "</think>").length = 8 := rfl
    rw [h7, h8] at this
    omega
  have hA2 : ∀ a ∈ mkTagSteps TagT.action (tagSpans (str "<tool_call>") (str "</tool_call>") P),
      a.index + 11 ≤ P.length := by
    intro a ha
    obtain ⟨q, hq, hidx⟩ := mem_mkTagSteps ha
    have := tagSpans_ub P q hq
    have h11 : (str "<tool_call>").length = 11 := rfl
    have h12 : (str "</tool_call>").length = 12 := rfl
    rw [h11, h12] at this
    omega
  have hN1 : ∀ a ∈ mkTagSteps TagT.thought T1, ¬ (a.index + 11 ≤ P.length) := by
    intro a ha
    obtain ⟨q, hq, hidx⟩ := mem_mkTagSteps ha
    have := hb1 q hq
    have h7 : (str "<think>").length = 7 := rfl
    rw [h7] at this
    omega
  have hN2 : ∀ a ∈ mkTagSteps TagT.action T2, ¬ (a.index + 11 ≤ P.length) := by
    intro a ha
    obtain ⟨q, hq, hidx⟩ := mem_mkTagSteps ha
    have := hb2 q hq
    have h11 : (str "<tool_call>").length = 11 := rfl
    rw [h11] at this
    omega
  have hsplit := sortByIdx_split (fun a => decide (a.index + 11 ≤ P.length))
    (by
      intro x y hx hy
      simp only [decide_eq_true_eq] at hx
      simp only [decide_eq_false_iff_not] at hy
      omega)
    ((mkTagSteps TagT.thought (tagSpans (str "<think>") (str "</think>") P) ++
        mkTagSteps TagT.thought T1) ++
      (mkTagSteps TagT.action (tagSpans (str "<tool_call>") (str "</tool_call>") P) ++
        mkTagSteps TagT.action T2))
  rw [hsplit]
  have hfl : (((mkTagSteps TagT.thought (tagSpans (str "<think>") (str "</think>") P) ++
        mkTagSteps TagT.thought T1) ++
      (mkTagSteps TagT.action (tagSpans (str "<tool_call>") (str "</tool_call>") P) ++
        mkTagSteps TagT.action T2))).filter (fun a => decide (a.index + 11 ≤ P.length)) =
      mkTagSteps TagT.thought (tagSpans (str "<think>") (str "</think>") P) ++
        mkTagSteps TagT.action (tagSpans (str "<tool_call>") (str "</tool_call>") P) := by
    rw [List.filter_append, List.filter_append, List.filter_append]
    rw [List.filter_eq_self.mpr (fun a ha => by simpa using hA1 a ha)]
    rw [List.filter_eq_nil_iff.mpr (fun a ha => by simpa using hN1 a ha)]
    rw [List.filter_eq_self.mpr (fun a ha => by simpa using hA2 a ha)]
    rw [List.filter_eq_nil_iff.mpr (fun a ha => by simpa using hN2 a ha)]
    simp
  rw [hfl]
  exact List.prefix_append _ _

/-- C1 witness: a concrete closed prefix and extension. -/
theorem c1_steps_stable_witness :
    tagClosed (str "<think>") (str "</think>") (str "<think>a</think>") = true ∧
    tagClosed (str "<tool_call>") (str "</tool_call>") (str "<think>a</think>") = true ∧
    (parsedContentTag (str "<think>a</think>")).steps <+:
      (parsedContentTag (str "<think>a</think>" ++ str "x<tool_call>b</tool_call>")).steps := by
  refine ⟨by decide, by decide, ?_⟩
  exact c1_steps_stable (str "<think>a</think>") (str "x<tool_call>b</tool_call>")
    (by decide) (by decide)

/-- C1 counterexample: the buffer `P = "<tool_call>x<think>a</think>"` ends
immediately after a closing `</think>` tag and is a proper prefix of
`B = P ++ "</tool_call>"`, yet `parse(P).steps` (one thought step) is not a
prefix of `parse(B).steps` (the closing of the pending tool tag inserts an
action step before the thought step). -/
theorem c1_counterexample :
    ¬ ((parsedContentTag (str "<tool_call>x<think>a" ++ str "</think>")).steps <+:
       (parsedContentTag ((str "<tool_call>x<think>a" ++ str "</think>") ++
         str "</tool_call>")).steps) := by
  decide


theorem removePairsF_succ_none {op cl s : List Char} {f : Nat}
    (h : findSub op s = none) : removePairsF op cl (f + 1) s = s := by
  simp [removePairsF, h]

theorem removePairsF_succ_opn {op cl s : List Char} {f i : Nat}
    (h : findSub op s = some i)
    (h2 : findSub cl (s.drop (i + op.length)) = none) :
    removePairsF op cl (f + 1) s = s := by
  simp [removePairsF, h, h2]

theorem removePairsF_succ_pair {op cl s : List Char} {f i j : Nat}
    (h : findSub op s = some i)
    (h2 : findSub cl (s.drop (i + op.length)) = some j) :
    removePairsF op cl (f + 1) s =
      s.take i ++ removePairsF op cl f ((s.drop (i + op.length)).drop (j + cl.length)) := by
  simp [removePairsF, h, h2]

theorem removePairsF_congr (op cl : List Char) (hop : op ≠ []) :
    ∀ f1 f2 s, s.length ≤ f1 → s.length ≤ f2 →
      removePairsF op cl f1 s = removePairsF op cl f2 s := by
  intro f1
  induction f1 with
  | zero =>
    intro f2 s h1 h2
    have : s = [] := List.length_eq_zero.mp (by omega)
    subst this
    cases f2 with
    | zero => rfl
    | succ f2 => rw [removePairsF_succ_none (findSub_nil_of_ne hop)]; rfl
  | succ f1 ih =>
    intro f2 s h1 h2
    cases f2 with
    | zero =>
      have : s = [] := List.length_eq_zero.mp (by omega)
      subst this
      rw [removePairsF_succ_none (findSub_nil_of_ne hop)]
      rfl
    | succ f2 =>
      cases hf : findSub op s with
      | none => rw [removePairsF_succ_none hf, removePairsF_succ_none hf]
      | some i =>
        cases hfc : findSub cl (s.drop (i + op.length)) with
        | none => rw [removePairsF_succ_opn hf hfc, removePairsF_succ_opn hf hfc]
        | some j =>
          rw [removePairsF_succ_pair hf hfc, removePairsF_succ_pair hf hfc]
          have hib := findSub_some_bound hf
          have hjb := findSub_some_bound hfc
          have hopl := length_pos_of_ne_nil hop
          simp only [List.length_drop] at hjb
          rw [ih f2 _ (by simp only [List.length_drop]; omega)
            (by simp only [List.length_drop]; omega)]

theorem allWs_not_mem {w : List Char} (hw : allWs w = true) {c : Char}
    (hc : jsWs c = false) : c ∉ w := by
  intro hmem
  have := List.all_eq_true.mp hw c hmem
  rw [hc] at this
  cases this

theorem allWs_false_of_mem {l : List Char} {c : Char}
    (hmem : c ∈ l) (hc : jsWs c = false) : allWs l = false := by
  cases h : allWs l with
  | false => rfl
  | true => exact absurd hmem (allWs_not_mem h hc)

theorem removePairsF_append (op cl d : List Char) (hop : op ≠ []) (hcl : cl ≠ [])
    (hd : d ≠ [])
    (hdop : ∀ c0, d.head? = some c0 → c0 ∉ op)
    (hdcl : ∀ c0, d.head? = some c0 → c0 ∉ cl)
    (hopd : ∀ p0, op.head? = some p0 → p0 ∉ d)
    (hcld : ∀ p0, cl.head? = some p0 → p0 ∉ d) :
    ∀ f s, removePairsF op cl f (s ++ d) = removePairsF op cl f s ++ d := by
  intro f
  induction f with
  | zero => intro s; rfl
  | succ f ih =>
    intro s
    have hoccop : ∀ k, op <+: (s ++ d).drop k → k + op.length ≤ s.length :=
      fun k hk => occ_append_bound hop hd hdop hopd hk
    have hfeq := findSub_append_eq hoccop
    cases hf : findSub op s with
    | none =>
      rw [removePairsF_succ_none (hfeq.trans hf), removePairsF_succ_none hf]
    | some i =>
      have hib := findSub_some_bound hf
      have hrest : (s ++ d).drop (i + op.length) = s.drop (i + op.length) ++ d := by
        rw [List.drop_append_eq_append_drop, Nat.sub_eq_zero_of_le (by omega), List.drop_zero]
      have hocccl : ∀ k, cl <+: ((s.drop (i + op.length)) ++ d).drop k →
          k + cl.length ≤ (s.drop (i + op.length)).length :=
        fun k hk => occ_append_bound hcl hd hdcl hcld hk
      have hfceq := findSub_append_eq hocccl
      cases hfc : findSub cl (s.drop (i + op.length)) with
      | none =>
        rw [removePairsF_succ_opn (hfeq.trans hf) (by rw [hrest]; exact hfceq.trans hfc),
          removePairsF_succ_opn hf hfc]
      | some j =>
        have hjb := findSub_some_bound hfc
        rw [removePairsF_succ_pair (hfeq.trans hf) (by rw [hrest]; exact hfceq.trans hfc),
          removePairsF_succ_pair hf hfc]
        have htake : (s ++ d).take i = s.take i := by
          rw [List.take_append_eq_append_take, Nat.sub_eq_zero_of_le (by omega),
            List.take_zero, List.append_nil]
        have hdrop2 : ((s ++ d).drop (i + op.length)).drop (j + cl.length) =
            (s.drop (i + op.length)).drop (j + cl.length) ++ d := by
          rw [hrest, List.drop_append_eq_append_drop, Nat.sub_eq_zero_of_le (by omega),
            List.drop_zero]
        rw [htake, hdrop2, ih]
        rw [List.append_assoc]

theorem stripTrailRes_append_trailing :
    ∀ (R w : List Char), allWs w = true →
      stripTrailRes (R ++ (str "\nResult" ++ w)) = R := by
  intro R
  induction R with
  | nil =>
    intro w hw
    have he : str "\nResult" ++ w = '\n' :: (str "Result" ++ w) := rfl
    rw [List.nil_append, he]
    have hpre : (str "\nResult").isPrefixOf ('\n' :: (str "Result" ++ w)) = true := by
      rw [← he]
      exact List.isPrefixOf_iff_prefix.mpr (List.prefix_append _ _)
    have hdr : ('\n' :: (str "Result" ++ w)).drop 7 = w := rfl
    simp [stripTrailRes, hpre, hdr, hw]
  | cons c R2 ih =>
    intro w hw
    have hne : allWs ((c :: (R2 ++ (str "\nResult" ++ w))).drop 7) = false := by
      have hmem : 't' ∈ (c :: (R2 ++ (str "\nResult" ++ w))).drop 7 := by
        have h1 : (c :: (R2 ++ (str "\nResult" ++ w))).drop 7 =
            R2.drop 6 ++ (str "\nResult" ++ w).drop (6 - R2.length) := by
          show (R2 ++ (str "\nResult" ++ w)).drop 6 = _
          rw [List.drop_append_eq_append_drop]
        rw [h1]
        by_cases h6 : 6 ≤ R2.length
        · refine List.mem_append.mpr (Or.inr ?_)
          rw [Nat.sub_eq_zero_of_le h6, List.drop_zero]
          exact List.mem_append.mpr (Or.inl (by decide))
        · refine List.mem_append.mpr (Or.inr ?_)
          have hz : 6 - R2.length - (str "\nResult").length = 0 := by
            have : (str "\nResult").length = 7 := rfl
            omega
          have hm : (str "\nResult" ++ w).drop (6 - R2.length) =
              (str "\nResult").drop (6 - R2.length) ++ w := by
            rw [List.drop_append_eq_append_drop, hz, List.drop_zero]
          rw [hm]
          refine List.mem_append.mpr (Or.inl ?_)
          have hlt : 6 - R2.length ≤ 6 := by omega
          revert hlt
          generalize 6 - R2.length = m
          intro hlt
          interval_cases m <;> decide
      exact allWs_false_of_mem hmem (by decide)
    have hcond : ((str "\nResult").isPrefixOf (c :: (R2 ++ (str "\nResult" ++ w))) &&
        allWs ((c :: (R2 ++ (str "\nResult" ++ w))).drop 7)) = false := by
      rw [hne, Bool.and_false]
    rw [List.cons_append]
    show stripTrailRes (c :: (R2 ++ (str "\nResult" ++ w))) = c :: R2
    rw [stripTrailRes, if_neg (by rw [hcond]; exact Bool.false_ne_true)]
    rw [ih w hw]

theorem stripTrailRes_cases :
    ∀ R : List Char, stripTrailRes R = R ∨
      ∃ A w, allWs w = true ∧ R = A ++ (str "\nResult" ++ w) ∧ stripTrailRes R = A := by
  intro R
  induction R with
  | nil => exact Or.inl rfl
  | cons c cs ih =>
    cases hcond : ((str "\nResult").isPrefixOf (c :: cs) && allWs ((c :: cs).drop 7)) with
    | true =>
      refine Or.inr ?_
      have hpre := List.isPrefixOf_iff_prefix.mp (Bool.and_elim_left hcond)
      obtain ⟨t, ht⟩ := hpre
      have hwt : allWs t = true := by
        have := Bool.and_elim_right hcond
        have hdr : (c :: cs).drop 7 = t := by
          rw [← ht]
          rfl
        rwa [hdr] at this
      refine ⟨[], t, hwt, by rw [List.nil_append, ← ht], ?_⟩
      rw [stripTrailRes, if_pos (by rw [hcond])]
    | false =>
      have hstep : stripTrailRes (c :: cs) = c :: stripTrailRes cs := by
        rw [stripTrailRes, if_neg (by rw [hcond]; exact Bool.false_ne_true)]
      rcases ih with h | ⟨A, w, hw, hcs, hstrip⟩
      · exact Or.inl (by rw [hstep, h])
      · exact Or.inr ⟨c :: A, w, hw, by rw [hcs, List.cons_append],
          by rw [hstep, hstrip]⟩

theorem splitLines_ne_nil (l : List Char) : splitLines l ≠ [] := by
  cases l with
  | nil => simp [splitLines]
  | cons c cs =>
    by_cases h : c = '\n'
    · simp [splitLines, h]
    · simp only [splitLines, h, if_false]
      cases splitLines cs with
      | nil => simp
      | cons h2 t2 => simp

theorem splitLines_append_newline :
    ∀ (A T : List Char), splitLines (A ++ '\n' :: T) = splitLines A ++ splitLines T := by
  intro A
  induction A with
  | nil => intro T; simp [splitLines]
  | cons c cs ih =>
    intro T
    by_cases hc : c = '\n'
    · subst hc
      simp only [List.cons_append, splitLines, if_true, List.append_eq]
      rw [ih]
    · simp only [List.cons_append, splitLines, hc, if_false, List.append_eq]
      rw [ih]
      cases hsp : splitLines cs with
      | nil => exact absurd hsp (splitLines_ne_nil cs)
      | cons h2 t2 => simp

theorem splitLines_prepend_inline :
    ∀ (Pb w : List Char), '\n' ∉ Pb →
      ∃ h t2, splitLines w = h :: t2 ∧ splitLines (Pb ++ w) = (Pb ++ h) :: t2 := by
  intro Pb
  induction Pb with
  | nil =>
    intro w _
    cases hsp : splitLines w with
    | nil => exact absurd hsp (splitLines_ne_nil w)
    | cons h t2 => exact ⟨h, t2, rfl, by simp [hsp]⟩
  | cons c cs ih =>
    intro w hnm
    have hc : c ≠ '\n' := fun h => hnm (h ▸ List.mem_cons_self c cs)
    obtain ⟨h, t2, hsp, hps⟩ := ih w (fun hm => hnm (List.mem_cons_of_mem c hm))
    refine ⟨h, t2, hsp, ?_⟩
    simp only [List.cons_append, splitLines, hc, if_false, List.append_eq, hps]

theorem splitLines_allWs {w : List Char} (hw : allWs w = true) :
    ∀ l ∈ splitLines w, allWs l = true := by
  induction w with
  | nil =>
    intro l hl
    simp [splitLines] at hl
    simp [hl, allWs]
  | cons c cs ih =>
    intro l hl
    have hcw : jsWs c = true := List.all_eq_true.mp hw c (by simp)
    have hcsw : allWs cs = true := by
      rw [allWs] at hw ⊢
      simp only [List.all_cons, Bool.and_eq_true] at hw
      exact hw.2
    by_cases hc : c = '\n'
    · simp only [splitLines, hc, if_true, List.mem_cons] at hl
      rcases hl with rfl | hl
      · rfl
      · exact ih hcsw l hl
    · simp only [splitLines, hc, if_false] at hl
      cases hsp : splitLines cs with
      | nil => exact absurd hsp (splitLines_ne_nil cs)
      | cons h2 t2 =>
        rw [hsp] at hl
        simp only [List.mem_cons] at hl
        rcases hl with rfl | hl
        · have hh2 : allWs h2 = true := ih hcsw h2 (by rw [hsp]; simp)
          simp only [allWs] at hh2 ⊢
          simp [List.all_cons, hcw, hh2]
        · exact ih hcsw l (by rw [hsp]; simp [hl])

theorem collapseF_nil : ∀ f, collapseF f [] = [] := by
  intro f
  cases f with
  | zero => rfl
  | succ f => rfl

theorem length_dropWhile_le_own (p : List Char → Bool) :
    ∀ ls : List (List Char), (ls.dropWhile p).length ≤ ls.length := by
  intro ls
  induction ls with
  | nil => simp
  | cons l rest ih =>
    by_cases h : p l
    · simp only [List.dropWhile_cons, h, if_true]
      simp only [List.length_cons]
      omega
    · simp only [List.dropWhile_cons, h, if_false]
      simp

theorem collapseF_congr :
    ∀ f1 f2 ls, ls.length ≤ f1 → ls.length ≤ f2 → collapseF f1 ls = collapseF f2 ls := by
  intro f1
  induction f1 with
  | zero =>
    intro f2 ls h1 h2
    have : ls = [] := List.length_eq_zero.mp (by omega)
    subst this
    rw [collapseF_nil, collapseF_nil]
  | succ f1 ih =>
    intro f2 ls h1 h2
    cases f2 with
    | zero =>
      have : ls = [] := List.length_eq_zero.mp (by omega)
      subst this
      rw [collapseF_nil, collapseF_nil]
    | succ f2 =>
      cases ls with
      | nil => rfl
      | cons l rest =>
        simp only [List.length_cons] at h1 h2
        cases hbb : isBareResult l with
        | true =>
          simp only [collapseF, hbb, if_true]
          have hdw := length_dropWhile_le_own allWs rest
          rw [ih f2 _ (by omega) (by omega)]
        | false =>
          simp only [collapseF, hbb, Bool.false_eq_true, if_false]
          rw [ih f2 _ (by omega) (by omega)]

theorem isBareResult_not_ws {l : List Char} (h : isBareResult l = true) :
    allWs l = false := by
  have hpre := List.isPrefixOf_iff_prefix.mp (Bool.and_elim_left h)
  obtain ⟨t, ht⟩ := hpre
  refine allWs_false_of_mem ?_ (by decide : jsWs 'R' = false)
  rw [← ht]
  have : 'R' ∈ str "Result" := by decide
  exact List.mem_append.mpr (Or.inl this)

theorem collapse_group (bR : List Char) (WL : List (List Char))
    (hb : isBareResult bR = true) (hWL : ∀ x ∈ WL, allWs x = true) :
    ∀ f LA, LA.length + 1 + WL.length ≤ f →
      collapseF f (LA ++ bR :: WL) = collapseF f LA ++ [[]] := by
  have hdwWL : WL.dropWhile allWs = [] := by
    rw [List.dropWhile_eq_nil_iff]
    intro x hx
    exact hWL x hx
  intro f
  induction f with
  | zero => intro LA h; simp at h
  | succ f ih =>
    intro LA h
    cases LA with
    | nil =>
      simp only [List.nil_append, collapseF, hb, if_true]
      rw [hdwWL]
      simp [collapseF_nil]
    | cons l LA2 =>
      simp only [List.length_cons] at h
      cases hbl : isBareResult l with
      | false =>
        simp only [List.cons_append, collapseF, hbl, Bool.false_eq_true, if_false]
        rw [ih LA2 (by omega)]
      | true =>
        simp only [List.cons_append, collapseF, hbl, if_true]
        rw [List.dropWhile_append]
        cases hdw : (LA2.dropWhile allWs).isEmpty with
        | true =>
          simp only [if_true]
          have hdw2 : (bR :: WL).dropWhile allWs = bR :: WL := by
            rw [List.dropWhile_cons, isBareResult_not_ws hb]
            simp
          rw [hdw2]
          cases f with
          | zero => omega
          | succ f2 =>
            have hbareunf : collapseF (f2 + 1) (bR :: WL) =
                [] :: collapseF f2 (WL.dropWhile allWs) := by
              simp only [collapseF, hb, if_true]
            rw [hbareunf, hdwWL]
            have hLA2 : LA2.dropWhile allWs = [] := List.isEmpty_iff.mp hdw
            rw [hLA2]
            simp [collapseF_nil]
        | false =>
          simp only [Bool.false_eq_true, if_false]
          have hlen := length_dropWhile_le_own allWs LA2
          rw [ih (LA2.dropWhile allWs) (by omega)]

theorem collapse_ne_nil {ls : List (List Char)} (h : ls ≠ []) : collapse ls ≠ [] := by
  cases ls with
  | nil => simp at h
  | cons l rest =>
    rw [collapse]
    simp only [List.length_cons, collapseF]
    by_cases hb : isBareResult l
    · simp [hb]
    · simp [hb]

theorem joinNL_cons_cons (l l2 : List Char) (ls : List (List Char)) :
    joinNL (l :: l2 :: ls) = l ++ '\n' :: joinNL (l2 :: ls) := rfl

theorem joinNL_append_empty :
    ∀ X : List (List Char), X ≠ [] → joinNL (X ++ [[]]) = joinNL X ++ ['\n'] := by
  intro X
  induction X with
  | nil => intro h; simp at h
  | cons x X2 ih =>
    intro _
    cases X2 with
    | nil => rfl
    | cons y Y =>
      have h1 : joinNL ((x :: y :: Y) ++ [[]]) =
          x ++ '\n' :: joinNL ((y :: Y) ++ [[]]) := rfl
      rw [h1, ih (by simp), joinNL_cons_cons]
      simp

theorem dropWhile_all_nil {l : List Char} (h : allWs l = true) :
    l.dropWhile jsWs = [] := by
  rw [List.dropWhile_eq_nil_iff]
  intro x hx
  exact List.all_eq_true.mp h x hx

theorem allWs_reverse {l : List Char} (h : allWs l = true) : allWs l.reverse = true := by
  rw [allWs] at h ⊢
  simpa using h

theorem trim_append_ws (Y w : List Char) (hw : allWs w = true) :
    trim (Y ++ w) = trim Y := by
  rw [trim, trim]
  rw [List.dropWhile_append]
  cases hYd : (Y.dropWhile jsWs).isEmpty with
  | true =>
    simp only [if_true]
    rw [dropWhile_all_nil hw, List.isEmpty_iff.mp hYd]
  | false =>
    simp only [Bool.false_eq_true, if_false]
    rw [List.reverse_append, List.dropWhile_append]
    have hwr : (w.reverse.dropWhile jsWs) = [] := dropWhile_all_nil (allWs_reverse hw)
    rw [hwr]
    simp

theorem collapse_group_mid (bR lb : List Char) (WL LB : List (List Char))
    (hb : isBareResult bR = true) (hWL : ∀ x ∈ WL, allWs x = true)
    (hlb : allWs lb = false) :
    ∀ f LA, LA.length + 1 + WL.length + 1 + LB.length ≤ f →
      collapseF f (LA ++ bR :: (WL ++ lb :: LB)) =
        collapseF f LA ++ [[]] ++ collapse (lb :: LB) := by
  have hdwW : (WL ++ lb :: LB).dropWhile allWs = lb :: LB := by
    rw [List.dropWhile_append]
    have : WL.dropWhile allWs = [] := by
      rw [List.dropWhile_eq_nil_iff]
      intro x hx
      exact hWL x hx
    rw [this]
    simp [List.dropWhile_cons, hlb]
  intro f
  induction f with
  | zero => intro LA h; simp at h
  | succ f ih =>
    intro LA h
    cases LA with
    | nil =>
      simp only [List.nil_append, collapseF, hb, if_true]
      rw [hdwW]
      rw [collapseF_congr f (lb :: LB).length (lb :: LB) (by simp at h ⊢; omega)
        (Nat.le_refl _)]
      rfl
    | cons l LA2 =>
      simp only [List.length_cons] at h
      cases hbl : isBareResult l with
      | false =>
        simp only [List.cons_append, collapseF, hbl, Bool.false_eq_true, if_false]
        rw [ih LA2 (by omega)]
      | true =>
        simp only [List.cons_append, collapseF, hbl, if_true]
        rw [List.dropWhile_append]
        cases hdw : (LA2.dropWhile allWs).isEmpty with
        | true =>
          simp only [if_true]
          have hdw2 : (bR :: (WL ++ lb :: LB)).dropWhile allWs = bR :: (WL ++ lb :: LB) := by
            rw [List.dropWhile_cons, isBareResult_not_ws hb]
            simp
          rw [hdw2]
          cases f with
          | zero => omega
          | succ f2 =>
            have hbareunf : collapseF (f2 + 1) (bR :: (WL ++ lb :: LB)) =
                [] :: collapseF f2 ((WL ++ lb :: LB).dropWhile allWs) := by
              simp only [collapseF, hb, if_true]
            rw [hbareunf, hdwW]
            rw [collapseF_congr f2 (lb :: LB).length (lb :: LB) (by simp; omega)
              (Nat.le_refl _)]
            have hLA2 : LA2.dropWhile allWs = [] := List.isEmpty_iff.mp hdw
            rw [hLA2]
            simp [collapseF_nil]
            rfl
        | false =>
          simp only [Bool.false_eq_true, if_false]
          have hlen := length_dropWhile_le_own allWs LA2
          rw [ih (LA2.dropWhile allWs) (by omega)]

theorem cleanContent_append_trailing (s w : List Char) (hw : allWs w = true) :
    cleanContent (s ++ (str "\nResult" ++ w)) = cleanContent s := by
  have hde : str "\nResult" ++ w = '\n' :: (str "Result" ++ w) := rfl
  have hd : str "\nResult" ++ w ≠ [] := by rw [hde]; simp
  have hdop : ∀ c0, (str "\nResult" ++ w).head? = some c0 → c0 ∉ str "<think>" := by
    intro c0 hc0
    rw [hde] at hc0
    simp only [List.head?_cons, Option.some.injEq] at hc0
    subst hc0
    decide
  have hdcl : ∀ c0, (str "\nResult" ++ w).head? = some c0 → c0 ∉ str "</think>" := by
    intro c0 hc0
    rw [hde] at hc0
    simp only [List.head?_cons, Option.some.injEq] at hc0
    subst hc0
    decide
  have hltd : '<' ∉ str "\nResult" ++ w := by
    intro hmem
    rcases List.mem_append.mp hmem with h | h
    · exact absurd h (by decide)
    · exact absurd h (allWs_not_mem hw (by decide))
  have hopd : ∀ p0, (str "<think>").head? = some p0 → p0 ∉ str "\nResult" ++ w := by
    intro p0 hp0
    have : p0 = '<' := by
      simp [str] at hp0
      exact hp0.symm
    subst this
    exact hltd
  have hcld : ∀ p0, (str "</think>").head? = some p0 → p0 ∉ str "\nResult" ++ w := by
    intro p0 hp0
    have : p0 = '<' := by
      simp [str] at hp0
      exact hp0.symm
    subst this
    exact hltd
  have hop7 : (str "<think>") ≠ [] := by decide
  have hcl8 : (str "</think>") ≠ [] := by decide
  -- stage 1: pair removal commutes with the suffix
  have hrp : removePairs (str "<think>") (str "</think>") (s ++ (str "\nResult" ++ w)) =
      removePairs (str "<think>") (str "</think>") s ++ (str "\nResult" ++ w) := by
    rw [removePairs, removePairs]
    rw [removePairsF_append _ _ _ hop7 hcl8 hd hdop hdcl hopd hcld]
    rw [removePairsF_congr _ _ hop7 (s ++ (str "\nResult" ++ w)).length s.length s
      (by simp) (Nat.le_refl _)]
  set c1 := removePairs (str "<think>") (str "</think>") s with hc1def
  have hpipe : ∀ x, cleanContent x =
      trim (joinNL (collapse (splitLines (stripTrailRes (truncAt (str "<think>")
        (removePairs (str "<think>") (str "</think>") x)))))) := fun x => rfl
  rw [hpipe, hpipe, hrp, ← hc1def]
  -- stage 2: truncation at a dangling <think>
  have hocc : ∀ k, (str "<think>") <+: (c1 ++ (str "\nResult" ++ w)).drop k →
      k + (str "<think>").length ≤ c1.length :=
    fun k hk => occ_append_bound hop7 hd hdop hopd hk
  have hfeq := findSub_append_eq hocc
  cases hft : findSub (str "<think>") c1 with
  | some i =>
    have hib := findSub_some_bound hft
    have htr1 : truncAt (str "<think>") (c1 ++ (str "\nResult" ++ w)) = c1.take i := by
      simp only [truncAt, hfeq, hft]
      rw [List.take_append_eq_append_take, Nat.sub_eq_zero_of_le (by omega),
        List.take_zero, List.append_nil]
    have htr2 : truncAt (str "<think>") c1 = c1.take i := by simp only [truncAt, hft]
    rw [htr1, htr2]
  | none =>
    have htr1 : truncAt (str "<think>") (c1 ++ (str "\nResult" ++ w)) =
        c1 ++ (str "\nResult" ++ w) := by
      simp only [truncAt, hfeq, hft]
    have htr2 : truncAt (str "<think>") c1 = c1 := by simp only [truncAt, hft]
    rw [htr1, htr2]
    -- stage 3: the appended trailing Result is stripped
    rw [stripTrailRes_append_trailing c1 w hw]
    rcases stripTrailRes_cases c1 with heq | ⟨A, w2, hw2, hA, hstrip⟩
    · rw [heq]
    · rw [hstrip, hA]
      -- stage 4: the line-level stripping of the inner trailing Result group
      have hAe : A ++ (str "\nResult" ++ w2) = A ++ '\n' :: (str "Result" ++ w2) := rfl
      rw [hAe, splitLines_append_newline]
      obtain ⟨h, t2, hsp, hps⟩ := splitLines_prepend_inline (str "Result") w2 (by decide)
      rw [hps]
      have hbR : isBareResult (str "Result" ++ h) = true := by
        rw [isBareResult]
        have h1 : (str "Result").isPrefixOf (str "Result" ++ h) = true :=
          List.isPrefixOf_iff_prefix.mpr (List.prefix_append _ _)
        have h2 : (str "Result" ++ h).drop 6 = h := by
          have h6 : (str "Result").drop 6 = [] := by decide
          have hz : 6 - (str "Result").length = 0 := by decide
          rw [List.drop_append_eq_append_drop, h6, List.nil_append, hz, List.drop_zero]
        rw [h1, h2]
        have hh : allWs h = true := splitLines_allWs hw2 h (by rw [hsp]; simp)
        rw [hh]
        rfl
      have ht2 : ∀ x ∈ t2, allWs x = true := by
        intro x hx
        exact splitLines_allWs hw2 x (by rw [hsp]; simp [hx])
      have hcol : collapse (splitLines A ++ (str "Result" ++ h) :: t2) =
          collapse (splitLines A) ++ [[]] := by
        rw [collapse]
        have hlen : (splitLines A ++ (str "Result" ++ h) :: t2).length =
            (splitLines A).length + 1 + t2.length := by
          simp
          omega
        rw [collapse_group (str "Result" ++ h) t2 hbR ht2 _ (splitLines A) (by omega)]
        rw [collapseF_congr (splitLines A ++ (str "Result" ++ h) :: t2).length
          (splitLines A).length (splitLines A) (by simp) (Nat.le_refl _)]
        rfl
      rw [hcol]
      rw [joinNL_append_empty _ (collapse_ne_nil (splitLines_ne_nil A))]
      exact trim_append_ws _ _ (by decide)

/-- C7: a literal bare `Result` line is removed from emitted step and
response content: (1) appending a trailing `"\nResult"` line plus any
whitespace to any buffer leaves `cleanContent` unchanged; (2) in the
line-stripping stage a standalone `Result` marker line, together with the
following run of whitespace-only lines, is replaced by a single empty
line; (3) the step loop skips continuation lines whose trim is `Result`. -/
theorem c7_result_stripping :
    (∀ s w, allWs w = true →
      cleanContent (s ++ (str "\nResult" ++ w)) = cleanContent s) ∧
    (∀ (LA : List (List Char)) (bR : List Char) (WL : List (List Char)) (lb : List Char)
        (LB : List (List Char)), isBareResult bR = true →
      (∀ x ∈ WL, allWs x = true) → allWs lb = false →
      collapse (LA ++ bR :: (WL ++ lb :: LB)) =
        collapse LA ++ [[]] ++ collapse (lb :: LB)) ∧
    (∀ (st : CotState) (t : CotT) (l : List Char) (ls : List (List Char)),
      st.currentType = some t → st.inThink = false →
      hasThinkOpen l = false → hasThinkClose l = false →
      (str "Planning:").isPrefixOf l = false → isStepLine l = false →
      (str "Tool:").isPrefixOf l = false → (str "Tool Input:").isPrefixOf l = false →
      (str "Result:").isPrefixOf l = false → (str "Summary:").isPrefixOf l = false →
      (isMdHeading l || isMdTable l) = false → trim l = str "Result" →
      cotLoop st (l :: ls) = cotLoop st ls) := by
  refine ⟨cleanContent_append_trailing, ?_, ?_⟩
  · intro LA bR WL lb LB hb hWL hlb
    rw [collapse]
    have hlen : (LA ++ bR :: (WL ++ lb :: LB)).length =
        LA.length + 1 + WL.length + 1 + LB.length := by
      simp
      omega
    rw [collapse_group_mid bR lb WL LB hb hWL hlb _ LA (by omega)]
    rw [collapseF_congr (LA ++ bR :: (WL ++ lb :: LB)).length LA.length LA
      (by simp) (Nat.le_refl _)]
    rfl
  · intro st t l ls hct hthink h1 h2 h3 h4 h5 h6 h7 h8 hmd htrim
    simp [cotLoop, h1, h2, h3, h4, h5, h6, h7, h8, hct, hthink, hmd, htrim]

/-- C7 witness: the three stripping mechanisms at concrete inputs. -/
theorem c7_result_stripping_witness :
    cleanContent (str "a" ++ (str "\nResult" ++ str " ")) = cleanContent (str "a") ∧
    collapse ([str "x"] ++ (str "Result ") :: ([str "\t"] ++ (str "b") :: [])) =
      collapse [str "x"] ++ [[]] ++ collapse ((str "b") :: []) ∧
    cotLoop { steps := [], currentType := some CotT.tool, currentContent := [str "z"],
              remaining := [], inThink := false } [str " Result"] =
      cotLoop { steps := [], currentType := some CotT.tool, currentContent := [str "z"],
                remaining := [], inThink := false } [] := by
  refine ⟨c7_result_stripping.1 (str "a") (str " ") (by decide), ?_, ?_⟩
  · exact c7_result_stripping.2.1 [str "x"] (str "Result ") [str "\t"] (str "b") []
      (by decide) (by decide) (by decide)
  · exact c7_result_stripping.2.2 _ CotT.tool (str " Result") [] rfl rfl (by decide)
      (by decide) (by decide) (by decide) (by decide) (by decide) (by decide) (by decide)
      (by decide) (by decide)
